import Mathlib

/-!
The package metadata reconciliation of packagetools.

A shallow embedding of the engine of `rbns/packagetools` (`packages.go`, `info.go`,
`packagetools.go`) together with the properties of its specification.

Conventions of the embedding:

* a Go `string` is a `List Char` (`Str`): a sequence of code points.  All separators the
  program looks for (`-`, two spaces, `/`, the archive suffixes) are ASCII, and the
  code-point order coincides with Go's byte order on UTF-8 text;
* a `time.Time` is the instant it denotes, counted from the zero value
  `0001-01-01 00:00:00 UTC`; the program only ever compares times that are the zero
  value or were produced by `time.Parse` in UTC, for which Go's `==` is equality of instants;
* a `map[string]info` is an association list with at most one entry per key;
* a file is the list of its lines, the text between the line feeds; the `bufio.Scanner` of
  a reader yields each line without a carriage return at its end, and gives up at a line
  of 64 KiB or more, which the readers do not notice as they never ask for its error;
* a Go `(value, error)` result is an `Except`;
* the `debug` logging has no effect on results and is left out.
-/

namespace PackageTools

/-- A Go string, as its sequence of characters. -/
abbrev Str := List Char

/-! ## The parts of the Go standard library the program uses -/

namespace strings

/-- Go `strings.HasPrefix(s, prefix)`. -/
def HasPrefix (s pre : Str) : Bool := pre.isPrefixOf s

/-- Go `strings.HasSuffix(s, suffix)`. -/
def HasSuffix (s suf : Str) : Bool := suf.isSuffixOf s

/-- Go `strings.TrimSuffix(s, suffix)`: `s` without the trailing `suffix`, or `s` itself when
it does not end in `suffix`. -/
def TrimSuffix (s suf : Str) : Str :=
  if HasSuffix s suf then s.take (s.length - suf.length) else s

/-- Put a character in front of the first piece of a split. -/
def consHead (c : Char) : List Str → List Str
  | [] => [[c]]
  | h :: t => (c :: h) :: t

/-- The scan of `strings.Split`: `skip` counts the characters of a separator that was just
matched and is still to be passed over. -/
def SplitFrom (sep : Str) : Str → Nat → List Str
  | [], _ => [[]]
  | _ :: cs, skip + 1 => SplitFrom sep cs skip
  | c :: cs, 0 =>
    if sep.isPrefixOf (c :: cs) then [] :: SplitFrom sep cs (sep.length - 1)
    else consHead c (SplitFrom sep cs 0)

/-- Go `strings.Split(s, sep)` for a non-empty `sep`: the pieces of `s` between the
occurrences of `sep`, found from left to right without overlap. -/
def Split (s sep : Str) : List Str := SplitFrom sep s 0

/-- Go `strings.Join(elems, sep)`. -/
def Join : List Str → Str → Str
  | [], _ => []
  | [a], _ => a
  | a :: b :: rest, sep => a ++ sep ++ Join (b :: rest) sep

end strings

namespace unicode

/-- Go `unicode.IsSpace`: the white space characters of Unicode. -/
def IsSpace (c : Char) : Bool :=
  let n := c.toNat
  n = 0x20 || (0x09 ≤ n && n ≤ 0x0D) || n = 0x85 || n = 0xA0 || n = 0x1680 ||
  (0x2000 ≤ n && n ≤ 0x200A) || n = 0x2028 || n = 0x2029 || n = 0x202F || n = 0x205F ||
  n = 0x3000

end unicode

namespace strings

/-- The scan of `strings.Fields`: `cur` is the field being read. -/
def FieldsFrom : Str → Str → List Str
  | [], cur => if cur = [] then [] else [cur]
  | c :: cs, cur =>
    if unicode.IsSpace c then
      (if cur = [] then FieldsFrom cs [] else cur :: FieldsFrom cs [])
    else FieldsFrom cs (cur ++ [c])

/-- Go `strings.Fields(s)`: the maximal runs of non-space characters of `s`. -/
def Fields (s : Str) : List Str := FieldsFrom s []

end strings

namespace filepath

/-- Go `filepath.Base(path)` with `/` as the separator: the last element of the path, after
removing trailing slashes; `.` for the empty path and `/` for a path of slashes only. -/
def Base (path : Str) : Str :=
  if path = [] then ['.']
  else
    let stripped := (path.reverse.dropWhile (fun c => c = '/')).reverse
    let last := (stripped.reverse.takeWhile (fun c => c ≠ '/')).reverse
    if last = [] then ['/'] else last

end filepath

/-- A Go `time.Time`: seconds and nanoseconds since `0001-01-01 00:00:00 UTC`. -/
structure Time where
  sec : Int
  nsec : Nat
  deriving DecidableEq, Repr

namespace Time

/-- The zero value `time.Time{}`. -/
def zero : Time := ⟨0, 0⟩

/-- Go `t.IsZero()`. -/
def IsZero (t : Time) : Bool := t.sec = 0 && t.nsec = 0

/-- Go `t.Before(u)`. -/
def Before (t u : Time) : Bool := t.sec < u.sec || (t.sec = u.sec && t.nsec < u.nsec)

end Time

namespace time

/-- The test `'0' <= c && c <= '9'` of `isDigit`. -/
def isDigit (c : Char) : Bool := '0' ≤ c && c ≤ '9'

/-- The value `c - '0'` of a digit. -/
def digitVal (c : Char) : Nat := c.toNat - '0'.toNat

/-- Go `getnum(s, fixed)`: a leading number of two digits, or of one digit when `fixed` is
false and no second digit follows; returns the number and the rest. -/
def getnum : Str → Bool → Option (Nat × Str)
  | [], _ => none
  | [c0], fixed => if isDigit c0 && !fixed then some (digitVal c0, []) else none
  | c0 :: c1 :: rest, fixed =>
    if isDigit c0 then
      if isDigit c1 then some (digitVal c0 * 10 + digitVal c1, rest)
      else if fixed then none else some (digitVal c0, c1 :: rest)
    else none

/-- The year `2006` of a layout: exactly four digits. -/
def getyear : Str → Option (Nat × Str)
  | c0 :: c1 :: c2 :: c3 :: rest =>
    if isDigit c0 && isDigit c1 && isDigit c2 && isDigit c3 then
      some (digitVal c0 * 1000 + digitVal c1 * 100 + digitVal c2 * 10 + digitVal c3, rest)
    else none
  | _ => none

/-- Go `skip(value, prefix)` for a one-character `prefix` other than a space. -/
def skipChar (c : Char) : Str → Option Str
  | [] => none
  | d :: rest => if d = c then some rest else none

/-- Go `skip(value, " ")`: the value may not start with another character; all its leading
spaces are cut. -/
def skipSpace : Str → Option Str
  | [] => some []
  | d :: rest => if d = ' ' then some ((d :: rest).dropWhile (fun c => c = ' ')) else none

/-- Go `isLeap(year)`. -/
def isLeap (year : Nat) : Bool := year % 4 = 0 && (year % 100 ≠ 0 || year % 400 = 0)

/-- Go `daysBefore[m]`: the days of a non-leap year before the end of month `m`. -/
def daysBefore (m : Nat) : Nat :=
  [0, 31, 59, 90, 120, 151, 181, 212, 243, 273, 304, 334, 365].getD m 0

/-- Go `daysIn(m, year)`. -/
def daysIn (m year : Nat) : Nat :=
  if m = 2 && isLeap year then 29 else daysBefore m - daysBefore (m - 1)

/-- Go `time.Date(year, month, day, hour, min, 0, 0, time.UTC)` for a valid date: the days
since `0001-01-01` are those of the whole years, of the months before, and of the month. -/
def Date (year month day hour min : Nat) : Time :=
  let y : Int := (year : Int) - 1
  let days : Int := 365 * y + y / 4 - y / 100 + y / 400 + daysBefore (month - 1) +
    (if isLeap year && 3 ≤ month then 1 else 0) + ((day : Int) - 1)
  ⟨days * 86400 + hour * 3600 + min * 60, 0⟩

/-- Go `time.Parse("2006-01-02 15:04", value)`: a four-digit year, a two-digit month in
1..12, a two-digit day that exists in that month, an hour of one or two digits below 24, a
two-digit minute below 60, and nothing after it.  `none` stands for the parse error. -/
def Parse (value : Str) : Option Time := do
  let (year, v) ← getyear value
  let v ← skipChar '-' v
  let (month, v) ← getnum v true
  if month = 0 ∨ 12 < month then none
  let v ← skipChar '-' v
  let (day, v) ← getnum v true
  let v ← skipSpace v
  let (hour, v) ← getnum v false
  if 24 ≤ hour then none
  let v ← skipChar ':' v
  let (min, v) ← getnum v true
  if 60 ≤ min then none
  if v ≠ [] then none
  if day < 1 ∨ daysIn month year < day then none
  some (Date year month day hour min)

end time

/-! ## info.go -/

/-- The record `info` of info.go. -/
structure info where
  Name : Str
  Version : Str
  Arch : Str
  Build : Str
  ModTime : Time
  CheckSum : Str
  Path : Str
  deriving DecidableEq, Repr

/-- The zero value `info{}`. -/
def info.empty : info := ⟨[], [], [], [], Time.zero, [], []⟩

/-- An argument of an error message. -/
inductive Value where
  | str (s : Str)
  | time (t : Time)
  deriving DecidableEq, Repr

/-- An error: either built by `fmt.Errorf(format, args...)`, kept as the format and its
arguments, or the error of `time.Parse` on a value. -/
inductive Err where
  | errorf (format : String) (args : List Value)
  | timeParse (value : Str)
  deriving DecidableEq, Repr

/-- Results of fallible functions can be compared. -/
instance instDecidableEqExcept {ε α : Type} [DecidableEq ε] [DecidableEq α] :
    DecidableEq (Except ε α)
  | .ok a, .ok b => if h : a = b then isTrue (h ▸ rfl) else isFalse (fun e => h (by cases e; rfl))
  | .error a, .error b =>
    if h : a = b then isTrue (h ▸ rfl) else isFalse (fun e => h (by cases e; rfl))
  | .ok _, .error _ => isFalse (fun e => by cases e)
  | .error _, .ok _ => isFalse (fun e => by cases e)

/-! ## packages.go -/

/-- The package file extensions `suffixes`. -/
def suffixes : List Str :=
  [".tgz".toList, ".txz".toList, ".tbz2".toList,
   ".tar.gz".toList, ".tar.xz".toList, ".tar.bz2".toList]

/-- `hasPrefixes(s, pre...)`: does `s` start with one of `pre`. -/
def hasPrefixes (s : Str) : List Str → Bool
  | [] => false
  | v :: rest => if strings.HasPrefix s v then true else hasPrefixes s rest

/-- `hasSuffixes(s, suf...)`: does `s` end with one of `suf`. -/
def hasSuffixes (s : Str) : List Str → Bool
  | [] => false
  | v :: rest => if strings.HasSuffix s v then true else hasSuffixes s rest

/-- `trimSuffixes(s, suf...)`: removes each suffix of `suf` in turn; it does not stop after
the first removal. -/
def trimSuffixes (s : Str) : List Str → Str
  | [] => s
  | v :: rest => trimSuffixes (strings.TrimSuffix s v) rest

/-- The segments `x` of `parsePackagePath`: the base name without the package suffixes,
split at dashes. -/
def segments (packagePath : Str) : List Str :=
  strings.Split (trimSuffixes (filepath.Base packagePath) suffixes) ['-']

/-- `parsePackagePath(packagePath)`: parses a file name into package information. -/
def parsePackagePath (packagePath : Str) : Except Err info :=
  let x := segments packagePath
  if x.length < 3 then
    .error (.errorf "invalid package name with less than 3 dashes: %v" [.str packagePath])
  else
    let name := strings.Join (x.take (x.length - 3)) ['-']
    let version := x.getD (x.length - 3) []
    let arch := x.getD (x.length - 2) []
    let build := x.getD (x.length - 1) []
    if name = [] ∨ version = [] ∨ arch = [] ∨ build = [] then
      .error (.errorf "empty fields in package: %v" [.str packagePath])
    else
      .ok { Name := name, Version := version, Arch := arch, Build := build,
            ModTime := Time.zero, CheckSum := [], Path := packagePath }

/-- A Go `map[string]info`: an association list, at most one entry for a key. -/
abbrev Map := List (Str × info)

/-- The lookup `v, ok := m[k]`. -/
def mapGet : Map → Str → Option info
  | [], _ => none
  | (k', v) :: rest, k => if k' = k then some v else mapGet rest k

/-- The assignment `m[k] = v`: replaces the entry of `k`, or adds one. -/
def mapSet : Map → Str → info → Map
  | [], k, v => [(k, v)]
  | (k', v') :: rest, k, v => if k' = k then (k, v) :: rest else (k', v') :: mapSet rest k v

/-! ## The scanner of the readers -/

namespace utf8

/-- Go `utf8.RuneLen`: the number of bytes of a character in a Go string. -/
def RuneLen (c : Char) : Nat :=
  if c.toNat < 0x80 then 1 else if c.toNat < 0x800 then 2 else if c.toNat < 0x10000 then 3
  else 4

end utf8

/-- Go `len(s)`: the number of bytes of a string. -/
def byteLen : Str → Nat
  | [] => 0
  | c :: cs => utf8.RuneLen c + byteLen cs

namespace bufio

/-- Go `bufio.MaxScanTokenSize`: the size to which the buffer of a scanner grows. -/
def MaxScanTokenSize : Nat := 64 * 1024

/-- Go `dropCR`: the line without a carriage return at its end. -/
def dropCR : Str → Str
  | [] => []
  | [c] => if c = '\r' then [] else [c]
  | c :: d :: rest => c :: dropCR (d :: rest)

/-- The first `n` bytes of a string.  A character that is cut by the end is kept as the
invalid character U+FFFD: like its first bytes it is not a space and ends no suffix. -/
def takeBytes : Nat → Str → Str
  | _, [] => []
  | n, c :: cs =>
    if utf8.RuneLen c ≤ n then c :: takeBytes (n - utf8.RuneLen c) cs
    else if n = 0 then [] else [Char.ofNat 0xFFFD]

/-- The bytes that the scanner holds when it gives up at a line: its buffer is full and has
no line feed.  A call of `Scan` after that returns them as a last token. -/
def buffered (line : Str) : Str := takeBytes MaxScanTokenSize line

/-- The tokens of a loop `for s.Scan()` that runs to its end, for a scanner with the split
function `ScanLines` in front of these lines: each line without its carriage return, up to
the first line that does not fit into the buffer with its line feed.  There `Scan` returns
false with `ErrTooLong`, as it does at the end of the file. -/
def scanLines : List Str → List Str
  | [] => []
  | line :: rest =>
    if byteLen line < MaxScanTokenSize then dropCR line :: scanLines rest else []

end bufio

/-- The body of the loop of `packageTimestamps` for one line: `out` is the map so far. -/
def timestampsLine (prefixes : List Str) (out : Map) (line : Str) : Except Err Map :=
  let fs := strings.Fields line
  if fs.length ≠ 8 then .ok out
  else if !hasSuffixes (fs.getD 7 []) suffixes then .ok out
  else if prefixes.length ≠ 0 && !hasPrefixes (fs.getD 7 []) prefixes then .ok out
  else if (mapGet out (fs.getD 7 [])).isSome then
    .error (.errorf "duplicate entry in filelist: %v" [.str (fs.getD 7 [])])
  else
    match parsePackagePath (fs.getD 7 []) with
    | .error err => .error err
    | .ok i =>
      match time.Parse (fs.getD 5 [] ++ [' '] ++ fs.getD 6 []) with
      | none => .error (.timeParse (fs.getD 5 [] ++ [' '] ++ fs.getD 6 []))
      | some modTime => .ok (mapSet out (fs.getD 7 []) { i with ModTime := modTime })

/-- The loop `for s.Scan()` of `packageTimestamps` over the remaining lines. -/
def timestampsLoop (prefixes : List Str) : List Str → Map → Except Err Map
  | [], out => .ok out
  | line :: rest, out =>
    match timestampsLine prefixes out line with
    | .error err => .error err
    | .ok out2 => timestampsLoop prefixes rest out2

/-- `packageTimestamps(filelist, prefixes...)`: reads the lines of a FILELIST.TXT into a map
from package path to its information and modification time.  The loop runs over the lines
that the scanner yields and ends when the scanner stops; `s.Err()` is not looked at. -/
def packageTimestamps (filelist : List Str) (prefixes : List Str) : Except Err Map :=
  timestampsLoop prefixes (bufio.scanLines filelist) []

/-- The marker that ends the header of CHECKSUMS.md5. -/
def md5Marker : Str := "MD5 message digest".toList

/-- The first loop of `packageChecksums`, `for s.Scan()` with a `break` at the first line
that starts with the marker; the result is what the scanner yields to the second loop.
After the marker these are the lines that follow.  When the scanner gives up at a line
before the marker the first loop ends as well, and the second loop is handed the bytes of
that line that the scanner holds, and nothing after them. -/
def skipHeader : List Str → List Str
  | [] => []
  | line :: rest =>
    if bufio.MaxScanTokenSize ≤ byteLen line then [bufio.dropCR (bufio.buffered line)]
    else if strings.HasPrefix (bufio.dropCR line) md5Marker then bufio.scanLines rest
    else skipHeader rest

/-- The body of the second loop of `packageChecksums` for one line. -/
def checksumsLine (prefixes : List Str) (pkgs : Map) (line : Str) : Except Err Map :=
  let fs := strings.Split line [' ', ' ']
  if fs.length ≠ 2 then .error (.errorf "invalid CHECKSUMS.md5 line: %v" [.str line])
  else if prefixes.length ≠ 0 && !hasPrefixes (fs.getD 1 []) prefixes then .ok pkgs
  else if !hasSuffixes (fs.getD 1 []) suffixes then .ok pkgs
  else
    match parsePackagePath (fs.getD 1 []) with
    | .error err => .error err
    | .ok i => .ok (mapSet pkgs (fs.getD 1 []) i)

/-- The second loop `for s.Scan()` of `packageChecksums` over the remaining lines. -/
def checksumsLoop (prefixes : List Str) : List Str → Map → Except Err Map
  | [], pkgs => .ok pkgs
  | line :: rest, pkgs =>
    match checksumsLine prefixes pkgs line with
    | .error err => .error err
    | .ok pkgs2 => checksumsLoop prefixes rest pkgs2

/-- `packageChecksums(checksums, prefixes...)`: reads the lines of a CHECKSUMS.md5 into a
map from package path to its information.  The second loop ends when the scanner stops;
`s.Err()` is not looked at. -/
def packageChecksums (checksums : List Str) (prefixes : List Str) : Except Err Map :=
  checksumsLoop prefixes (skipHeader checksums) []

/-! ## info.go: merging -/

/-- `mergeInfos(a, b)`: field by field, the value of the side that has one; an error when
both sides have one and they differ. -/
def mergeInfos (a b : info) : Except Err info :=
  (if (a.Name ≠ [] ∧ b.Name = []) ∨ a.Name = b.Name then Except.ok a.Name
   else if a.Name = [] ∧ b.Name ≠ [] then Except.ok b.Name
   else Except.error (Err.errorf "Name conflict: a: %v b: %v" [.str a.Name, .str b.Name]) :
    Except Err Str).bind
  fun name =>
  (if (a.Version ≠ [] ∧ b.Version = []) ∨ a.Version = b.Version then Except.ok a.Version
   else if a.Version = [] ∧ b.Version ≠ [] then Except.ok b.Version
   else Except.error (Err.errorf "Version conflict: a: %v b: %v" [.str a.Version, .str b.Version]) :
    Except Err Str).bind
  fun version =>
  (if (a.Arch ≠ [] ∧ b.Arch = []) ∨ a.Arch = b.Arch then Except.ok a.Arch
   else if a.Arch = [] ∧ b.Arch ≠ [] then Except.ok b.Arch
   else Except.error (Err.errorf "Arch conflict: a: %v b: %v" [.str a.Arch, .str b.Arch]) :
    Except Err Str).bind
  fun arch =>
  (if (a.Build ≠ [] ∧ b.Build = []) ∨ a.Build = b.Build then Except.ok a.Build
   else if a.Build = [] ∧ b.Build ≠ [] then Except.ok b.Build
   else Except.error (Err.errorf "Build conflict: a: %v b: %v" [.str a.Build, .str b.Build]) :
    Except Err Str).bind
  fun build =>
  (if (!a.ModTime.IsZero ∧ b.ModTime.IsZero) ∨ a.ModTime = b.ModTime then Except.ok a.ModTime
   else if a.ModTime.IsZero ∧ !b.ModTime.IsZero then Except.ok b.ModTime
   else Except.error (Err.errorf "ModTime conflict: a: %v b: %v" [.time a.ModTime, .time b.ModTime]) :
    Except Err Time).bind
  fun modTime =>
  (if (a.CheckSum ≠ [] ∧ b.CheckSum = []) ∨ a.CheckSum = b.CheckSum then Except.ok a.CheckSum
   else if a.CheckSum = [] ∧ b.CheckSum ≠ [] then Except.ok b.CheckSum
   else Except.error (Err.errorf "CheckSum conflict: a: %v b: %v" [.str a.CheckSum, .str b.CheckSum]) :
    Except Err Str).bind
  fun checkSum =>
  (if (a.Path ≠ [] ∧ b.Path = []) ∨ a.Path = b.Path then Except.ok a.Path
   else if a.Path = [] ∧ b.Path ≠ [] then Except.ok b.Path
   else Except.error (Err.errorf "Path conflict: a: %v b: %v" [.str a.Path, .str b.Path]) :
    Except Err Str).bind
  fun path =>
  .ok { Name := name, Version := version, Arch := arch, Build := build,
        ModTime := modTime, CheckSum := checkSum, Path := path }

/-- Go `s < t` on strings: the lexicographic order. -/
def strLess : Str → Str → Bool
  | [], [] => false
  | [], _ :: _ => true
  | _ :: _, [] => false
  | a :: as, b :: bs => if a < b then true else if b < a then false else strLess as bs

/-- Insertion of a record into a list sorted by `infoByName.Less`, in front of the records
that are not smaller. -/
def insertByName (v : info) : List info → List info
  | [] => [v]
  | w :: rest => if strLess w.Name v.Name then w :: insertByName v rest else v :: w :: rest

/-- `sort.Sort(infoByName(out))`: the records in ascending order of `Name`.  Records of
one name keep their order, as in the insertion sort that `sort.Sort` uses for short slices;
for longer slices Go leaves their order open. -/
def sortByName : List info → List info
  | [] => []
  | v :: rest => insertByName v (sortByName rest)

/-! ## packages.go: reconciliation -/

/-- The body of the merging loop of `readRepository` for one entry `k, v` of the checksum
map: `newestPkgs` is the map by name so far. -/
def reconcileEntry (tsPkgs newestPkgs : Map) (kv : Str × info) : Except Err Map :=
  match mapGet tsPkgs kv.1 with
  | none =>
    .error (.errorf "package in checksums not found in timestamps: %v" [.str kv.1])
  | some w =>
    match mergeInfos kv.2 w with
    | .error err => .error err
    | .ok mergedPkg =>
      match mapGet newestPkgs kv.2.Name with
      | none => .ok (mapSet newestPkgs kv.2.Name mergedPkg)
      | some cur =>
        if cur.ModTime.Before mergedPkg.ModTime then .ok (mapSet newestPkgs kv.2.Name mergedPkg)
        else .ok newestPkgs

/-- The merging loop `for k, v := range csPkgs` of `readRepository`, over the entries in the
order in which the loop visits them. -/
def reconcileLoop (tsPkgs : Map) : List (Str × info) → Map → Except Err Map
  | [], newestPkgs => .ok newestPkgs
  | kv :: rest, newestPkgs =>
    match reconcileEntry tsPkgs newestPkgs kv with
    | .error err => .error err
    | .ok newest2 => reconcileLoop tsPkgs rest newest2

/-- The reconciliation of `readRepository`: merges the entries of the checksum map, visited
in the order `entries`, with the timestamp map, keeps the newest per name and sorts. -/
def reconcile (tsPkgs : Map) (entries : List (Str × info)) : Except Err (List info) :=
  match reconcileLoop tsPkgs entries [] with
  | .error err => .error err
  | .ok newestPkgs => .ok (sortByName (newestPkgs.map Prod.snd))

/-- `readRepository(repo, prefixes)` on the lines of the two files of the repository; the
checksum map is visited in the order of its association list. -/
def readRepository (filelist checksums : List Str) (prefixes : List Str) :
    Except Err (List info) :=
  match packageTimestamps filelist prefixes with
  | .error err => .error err
  | .ok tsPkgs =>
    match packageChecksums checksums prefixes with
    | .error err => .error err
    | .ok csPkgs => reconcile tsPkgs csPkgs

/-! ## Vocabulary of the merge properties -/

/-- The fields of `info`, in the order in which `mergeInfos` treats them. -/
inductive Field where
  | Name | Version | Arch | Build | ModTime | CheckSum | Path
  deriving DecidableEq, Repr

/-- The position of a field in the order of `mergeInfos`. -/
def Field.index : Field → Nat
  | .Name => 0 | .Version => 1 | .Arch => 2 | .Build => 3
  | .ModTime => 4 | .CheckSum => 5 | .Path => 6

/-- The format of the conflict error of a field in `mergeInfos`. -/
def Field.conflictFormat : Field → String
  | .Name => "Name conflict: a: %v b: %v"
  | .Version => "Version conflict: a: %v b: %v"
  | .Arch => "Arch conflict: a: %v b: %v"
  | .Build => "Build conflict: a: %v b: %v"
  | .ModTime => "ModTime conflict: a: %v b: %v"
  | .CheckSum => "CheckSum conflict: a: %v b: %v"
  | .Path => "Path conflict: a: %v b: %v"

/-- The value of a field of a record. -/
def info.get (i : info) : Field → Value
  | .Name => .str i.Name
  | .Version => .str i.Version
  | .Arch => .str i.Arch
  | .Build => .str i.Build
  | .ModTime => .time i.ModTime
  | .CheckSum => .str i.CheckSum
  | .Path => .str i.Path

/-- A value is absent when it is the empty string or the zero time. -/
def Value.absent : Value → Bool
  | .str s => s = []
  | .time t => t.IsZero

/-- A field conflicts when it is present on both sides with different values. -/
def conflictAt (a b : info) (f : Field) : Prop :=
  (a.get f).absent = false ∧ (b.get f).absent = false ∧ a.get f ≠ b.get f

instance instDecidableConflictAt (a b : info) (f : Field) : Decidable (conflictAt a b f) := by
  unfold conflictAt
  infer_instance

/-- The block of `mergeInfos` for one string field, with the format of its error. -/
def mergeStr (format : String) (x y : Str) : Except Err Str :=
  if (x ≠ [] ∧ y = []) ∨ x = y then .ok x
  else if x = [] ∧ y ≠ [] then .ok y
  else .error (Err.errorf format [.str x, .str y])

/-- The block of `mergeInfos` for `ModTime`. -/
def mergeTime (x y : Time) : Except Err Time :=
  if (!x.IsZero ∧ y.IsZero) ∨ x = y then .ok x
  else if x.IsZero ∧ !y.IsZero then .ok y
  else .error (Err.errorf "ModTime conflict: a: %v b: %v" [.time x, .time y])

/-- The reference of the merge: field by field, the value of the side on which the field
is present (the left one when both are, the right one when neither is). -/
def coalesceInfos (a b : info) : info :=
  { Name := if a.Name = [] then b.Name else a.Name,
    Version := if a.Version = [] then b.Version else a.Version,
    Arch := if a.Arch = [] then b.Arch else a.Arch,
    Build := if a.Build = [] then b.Build else a.Build,
    ModTime := if a.ModTime.IsZero then b.ModTime else a.ModTime,
    CheckSum := if a.CheckSum = [] then b.CheckSum else a.CheckSum,
    Path := if a.Path = [] then b.Path else a.Path }

/-! ## packages.go: the local package log -/

/-- An entry of the directory of package logs, as `os.FileInfo` gives it: `Name()` and
`ModTime()`. -/
structure FileInfo where
  Name : Str
  ModTime : Time
  deriving DecidableEq, Repr

/-- Insertion of an entry into a list sorted by `fileInfosByName.Less`, in front of the
entries that are not smaller. -/
def insertByFileName (v : FileInfo) : List FileInfo → List FileInfo
  | [] => [v]
  | w :: rest =>
    if strLess w.Name v.Name then w :: insertByFileName v rest else v :: w :: rest

/-- `sort.Sort(fileInfosByName(fileInfos))`: the entries in ascending order of their file
names. -/
def sortByFileName : List FileInfo → List FileInfo
  | [] => []
  | v :: rest => insertByFileName v (sortByFileName rest)

/-- The loop `for _, v := range fileInfos` of `readPackageLog`: parses the name of each
entry and attaches its modification time; the first name that does not parse ends it. -/
def parseFileInfos : List FileInfo → Except Err (List info)
  | [] => .ok []
  | v :: rest =>
    match parsePackagePath v.Name with
    | .error err => .error err
    | .ok i =>
      match parseFileInfos rest with
      | .error err => .error err
      | .ok pkgs => .ok ({ i with ModTime := v.ModTime } :: pkgs)

/-- `readPackageLog(packageLog)` on the entries that `Readdir` returns for the directory. -/
def readPackageLog (fileInfos : List FileInfo) : Except Err (List info) :=
  parseFileInfos (sortByFileName fileInfos)

/-! ## packagetools.go -/

/-- `list(packageLog)`: the locally installed packages, copied from `readPackageLog`. -/
def list (fileInfos : List FileInfo) : Except Err (List info) :=
  match readPackageLog fileInfos with
  | .error err => .error err
  | .ok is => .ok is

/-- The pair `upgradeInfo` of info.go: a local package and the repository package. -/
structure upgradeInfo where
  Local : info
  Repo : info
  deriving DecidableEq, Repr

/-- The zero value `upgradeInfo{}`. -/
def upgradeInfo.empty : upgradeInfo := ⟨info.empty, info.empty⟩

/-- The inner loop of `upgrade` over the repository packages: stops at the first package
with the name of `localPkg`, and gives the pair when the version or the build differs. -/
def findMatch (localPkg : info) : List info → upgradeInfo
  | [] => upgradeInfo.empty
  | repoPkg :: rest =>
    if repoPkg.Name = localPkg.Name then
      if repoPkg.Version ≠ localPkg.Version ∨ repoPkg.Build ≠ localPkg.Build then
        { Local := localPkg, Repo := repoPkg }
      else upgradeInfo.empty
    else findMatch localPkg rest

/-- The outer loop of `upgrade` over the local packages: appends each match that is not the
zero value. -/
def matchLoop (repoPkgs : List info) : List info → List upgradeInfo
  | [] => []
  | localPkg :: rest =>
    if findMatch localPkg repoPkgs = upgradeInfo.empty then matchLoop repoPkgs rest
    else findMatch localPkg repoPkgs :: matchLoop repoPkgs rest

/-- Insertion of a pair into a list sorted by `upgradeInfoByName.Less`, in front of the
pairs that are not smaller. -/
def insertByLocalName (v : upgradeInfo) : List upgradeInfo → List upgradeInfo
  | [] => [v]
  | w :: rest =>
    if strLess w.Local.Name v.Local.Name then w :: insertByLocalName v rest
    else v :: w :: rest

/-- `sort.Sort(upgradeInfoByName(out))`: the pairs in ascending order of the local name;
pairs of one local name keep their order, as in the insertion sort of short slices. -/
def sortByLocalName : List upgradeInfo → List upgradeInfo
  | [] => []
  | v :: rest => insertByLocalName v (sortByLocalName rest)

/-- `upgrade(repo, prefixes, local)` after the two reads: matches the local packages to the
repository packages and sorts the pairs. -/
def upgrade (repoPkgs localPkgs : List info) : List upgradeInfo :=
  sortByLocalName (matchLoop repoPkgs localPkgs)

/-! ## Vocabulary of the reconciliation properties -/

/-- A merged record: the merge of an entry of the checksum map with the entry of the
timestamp map for the same path. -/
def isMerged (tsPkgs : Map) (entries : List (Str × info)) (m : info) : Prop :=
  ∃ kv ∈ entries, ∃ w, mapGet tsPkgs kv.1 = some w ∧ mergeInfos kv.2 w = .ok m

/-- Adding entries to a map, one assignment after the other. -/
def mapSetAll : Map → List (Str × info) → Map
  | m, [] => m
  | m, e :: rest => mapSetAll (mapSet m e.1 e.2) rest

/-! ## An example repository -/

/-- An example FILELIST.TXT: two versions of `foo` and one package `bar`. -/
def exampleFilelist : List Str :=
  ["-rw-r--r-- 1 root root 10 2020-01-02 03:04 ./a/foo-1.0-x86_64-1.tgz".toList,
   "-rw-r--r-- 1 root root 10 2021-05-06 07:08 ./p/foo-1.1-x86_64-1.tgz".toList,
   "-rw-r--r-- 1 root root 10 2020-01-02 03:04 ./a/bar-2.0-x86_64-1.tgz".toList]

/-- An example CHECKSUMS.md5 for the same three packages. -/
def exampleChecksums : List Str :=
  ["MD5 message digest                Filename".toList,
   "0a  ./a/foo-1.0-x86_64-1.tgz".toList,
   "0b  ./p/foo-1.1-x86_64-1.tgz".toList,
   "0c  ./a/bar-2.0-x86_64-1.tgz".toList]

/-- The record of an example package of architecture `x86_64` and build `1`. -/
def examplePkg (name version path : String) (modTime : Time) : info :=
  { Name := name.toList, Version := version.toList, Arch := "x86_64".toList,
    Build := "1".toList, ModTime := modTime, CheckSum := [], Path := path.toList }

/-- The map that `packageTimestamps` reads from the example. -/
def exampleTimestampMap : Map :=
  [("./a/foo-1.0-x86_64-1.tgz".toList,
      examplePkg "foo" "1.0" "./a/foo-1.0-x86_64-1.tgz" ⟨63713531040, 0⟩),
   ("./p/foo-1.1-x86_64-1.tgz".toList,
      examplePkg "foo" "1.1" "./p/foo-1.1-x86_64-1.tgz" ⟨63755881680, 0⟩),
   ("./a/bar-2.0-x86_64-1.tgz".toList,
      examplePkg "bar" "2.0" "./a/bar-2.0-x86_64-1.tgz" ⟨63713531040, 0⟩)]

/-- The map that `packageChecksums` reads from the example. -/
def exampleChecksumMap : Map :=
  [("./a/foo-1.0-x86_64-1.tgz".toList,
      examplePkg "foo" "1.0" "./a/foo-1.0-x86_64-1.tgz" Time.zero),
   ("./p/foo-1.1-x86_64-1.tgz".toList,
      examplePkg "foo" "1.1" "./p/foo-1.1-x86_64-1.tgz" Time.zero),
   ("./a/bar-2.0-x86_64-1.tgz".toList,
      examplePkg "bar" "2.0" "./a/bar-2.0-x86_64-1.tgz" Time.zero)]

/-- The records that the reconciliation returns for the example. -/
def exampleRepository : List info :=
  [examplePkg "bar" "2.0" "./a/bar-2.0-x86_64-1.tgz" ⟨63713531040, 0⟩,
   examplePkg "foo" "1.1" "./p/foo-1.1-x86_64-1.tgz" ⟨63755881680, 0⟩]

/-! ## Lemmas on the string functions -/

theorem SplitFrom_ne_nil (sep s : Str) (k : Nat) : strings.SplitFrom sep s k ≠ [] := by
  induction s generalizing k with
  | nil => simp [strings.SplitFrom]
  | cons c cs ih =>
    cases k with
    | succ k => simpa [strings.SplitFrom] using ih k
    | zero =>
      unfold strings.SplitFrom
      split
      · simp
      · cases h : strings.SplitFrom sep cs 0 with
        | nil => exact absurd h (ih 0)
        | cons a b => simp [strings.consHead]

theorem consHead_append (c : Char) (l r : List Str) (h : l ≠ []) :
    strings.consHead c (l ++ r) = strings.consHead c l ++ r := by
  cases l with
  | nil => exact absurd rfl h
  | cons a b => rfl

theorem Split_dash_cons_dash (s : Str) :
    strings.Split ('-' :: s) ['-'] = [] :: strings.Split s ['-'] := by
  simp [strings.Split, strings.SplitFrom]

theorem Split_dash_cons_other (c : Char) (s : Str) (h : c ≠ '-') :
    strings.Split (c :: s) ['-'] = strings.consHead c (strings.Split s ['-']) := by
  have h2 : ¬ '-' = c := fun e => h e.symm
  simp [strings.Split, strings.SplitFrom, h2]

theorem Split_ne_nil (s sep : Str) : strings.Split s sep ≠ [] := SplitFrom_ne_nil _ _ _

theorem Split_dash_append (a b : Str) :
    strings.Split (a ++ '-' :: b) ['-'] = strings.Split a ['-'] ++ strings.Split b ['-'] := by
  induction a with
  | nil => simp [Split_dash_cons_dash, strings.Split, strings.SplitFrom]
  | cons c cs ih =>
    by_cases h : c = '-'
    · subst h
      simp only [List.cons_append, Split_dash_cons_dash, ih]
    · simp only [List.cons_append, Split_dash_cons_other _ _ h, ih]
      exact consHead_append _ _ _ (SplitFrom_ne_nil _ _ _)

theorem Split_dash_of_not_mem (a : Str) (h : '-' ∉ a) : strings.Split a ['-'] = [a] := by
  induction a with
  | nil => simp [strings.Split, strings.SplitFrom]
  | cons c cs ih =>
    simp only [List.mem_cons, not_or] at h
    rw [Split_dash_cons_other _ _ (fun e => h.1 e.symm), ih h.2]
    rfl

theorem Join_consHead (c : Char) (l : List Str) (sep : Str) (h : l ≠ []) :
    strings.Join (strings.consHead c l) sep = c :: strings.Join l sep := by
  match l, h with
  | [a], _ => rfl
  | a :: b :: rest, _ => rfl

theorem Join_Split_dash (a : Str) : strings.Join (strings.Split a ['-']) ['-'] = a := by
  induction a with
  | nil => rfl
  | cons c cs ih =>
    by_cases h : c = '-'
    · subst h
      rw [Split_dash_cons_dash]
      cases hs : strings.Split cs ['-'] with
      | nil => exact absurd hs (SplitFrom_ne_nil _ _ _)
      | cons x y =>
        rw [hs] at ih
        simp [strings.Join, ih]
    · rw [Split_dash_cons_other _ _ h, Join_consHead _ _ _ (Split_ne_nil _ _), ih]

theorem Base_of_no_slash (p : Str) (hne : p ≠ []) (h : '/' ∉ p) : filepath.Base p = p := by
  have h1 : p.reverse.dropWhile (fun c => decide (c = '/')) = p.reverse := by
    cases hp : p.reverse with
    | nil => rfl
    | cons a b =>
      have ha : a ∈ p := by
        have : a ∈ p.reverse := by rw [hp]; simp
        simpa using this
      have : a ≠ '/' := fun e => h (e ▸ ha)
      simp [List.dropWhile, this]
  have h2 : p.reverse.takeWhile (fun c => decide (c ≠ '/')) = p.reverse := by
    rw [List.takeWhile_eq_self_iff]
    intro c hc
    have hc2 : c ∈ p := by simpa using hc
    have : c ≠ '/' := fun e => h (e ▸ hc2)
    simpa using this
  unfold filepath.Base
  simp only [hne, if_false, h1, List.reverse_reverse, h2]

theorem TrimSuffix_append (x v : Str) : strings.TrimSuffix (x ++ v) v = x := by
  have h : strings.HasSuffix (x ++ v) v = true := by
    simp [strings.HasSuffix]
  simp [strings.TrimSuffix, h]

theorem TrimSuffix_of_not_suffix (s v : Str) (h : ¬ v <:+ s) : strings.TrimSuffix s v = s := by
  have h2 : strings.HasSuffix s v = false := by
    cases hb : strings.HasSuffix s v with
    | false => rfl
    | true => exact absurd (List.isSuffixOf_iff_suffix.mp hb) h
  simp [strings.TrimSuffix, h2]

theorem trimSuffixes_of_no_suffix (s : Str) (l : List Str) (h : ∀ v ∈ l, ¬ v <:+ s) :
    trimSuffixes s l = s := by
  induction l with
  | nil => rfl
  | cons v rest ih =>
    simp only [trimSuffixes]
    rw [TrimSuffix_of_not_suffix _ _ (h v (by simp))]
    exact ih (fun w hw => h w (by simp [hw]))

theorem trimSuffixes_append (s : Str) (l r : List Str) :
    trimSuffixes s (l ++ r) = trimSuffixes (trimSuffixes s l) r := by
  induction l generalizing s with
  | nil => rfl
  | cons v rest ih => exact ih _

/-- No known suffix ends in another one. -/
theorem suffixes_antichain : ∀ v ∈ suffixes, ∀ w ∈ suffixes, v <:+ w → v = w := by
  decide

theorem suffixes_nodup : suffixes.Nodup := by decide

theorem suffixes_no_dash : ∀ v ∈ suffixes, '-' ∉ v := by decide

/-- Stripping the suffixes from `x ++ suf`, where `suf` is a known suffix, leaves `x` when
`x` ends in none of the suffixes listed after `suf`. -/
theorem trimSuffixes_known (x suf : Str) (pre post : List Str)
    (hsplit : suffixes = pre ++ suf :: post) (hpost : ∀ v ∈ post, ¬ v <:+ x) :
    trimSuffixes (x ++ suf) suffixes = x := by
  have hsufmem : suf ∈ suffixes := by rw [hsplit]; simp
  have hpre : ∀ v ∈ pre, ¬ v <:+ x ++ suf := by
    intro v hv hvs
    have hvmem : v ∈ suffixes := by rw [hsplit]; simp [hv]
    have hne : v ≠ suf := by
      have hnd := suffixes_nodup
      rw [hsplit, List.nodup_append] at hnd
      intro e
      exact hnd.2.2 hv (by simp [e])
    rcases List.suffix_or_suffix_of_suffix hvs (List.suffix_append x suf) with h | h
    · exact hne (suffixes_antichain v hvmem suf hsufmem h)
    · exact hne (suffixes_antichain suf hsufmem v hvmem h).symm
  rw [hsplit, trimSuffixes_append, trimSuffixes_of_no_suffix _ _ hpre]
  simp only [trimSuffixes]
  rw [TrimSuffix_append, trimSuffixes_of_no_suffix _ _ hpost]

/-- A string without a dash ends a dash-separated name only inside the last segment. -/
theorem suffix_of_last_segment (v y build : Str) (hv : '-' ∉ v)
    (h : v <:+ y ++ '-' :: build) : v <:+ build := by
  have h2 : build <:+ y ++ '-' :: build := by
    rw [show y ++ '-' :: build = (y ++ ['-']) ++ build by simp]
    exact List.suffix_append _ _
  rcases List.suffix_or_suffix_of_suffix h h2 with h3 | h3
  · exact h3
  · rcases List.suffix_iff_eq_append.mp h with hl
    by_cases hlen : v.length ≤ build.length
    · exact (List.suffix_of_suffix_length_le h h2 hlen)
    · exfalso
      have h4 : ('-' :: build) <:+ y ++ '-' :: build := List.suffix_append _ _
      have h5 : ('-' :: build) <:+ v :=
        List.suffix_of_suffix_length_le h4 h (by simp; omega)
      exact hv (h5.subset (by simp))

/-! ## parsePackagePath -/

theorem getD_append_add (pre l : List Str) (i : Nat) :
    (pre ++ l).getD (pre.length + i) [] = l.getD i [] := by
  induction pre with
  | nil => simp
  | cons c cs ih =>
    have : (c :: cs).length + i = (cs.length + i) + 1 := by simp; omega
    rw [List.cons_append, this, List.getD_cons_succ, ih]

/-- The result of `parsePackagePath` when the segments end in `v`, `a`, `b`. -/
theorem parsePackagePath_of_segments (p : Str) (pre : List Str) (v a b : Str)
    (h : segments p = pre ++ [v, a, b]) :
    parsePackagePath p =
      if strings.Join pre ['-'] = [] ∨ v = [] ∨ a = [] ∨ b = [] then
        .error (.errorf "empty fields in package: %v" [.str p])
      else
        .ok { Name := strings.Join pre ['-'], Version := v, Arch := a, Build := b,
              ModTime := Time.zero, CheckSum := [], Path := p } := by
  have hlen : (segments p).length = pre.length + 3 := by simp [h]
  have htake : (segments p).take ((segments p).length - 3) = pre := by
    rw [hlen, h]; simp
  have h3 : (segments p).getD ((segments p).length - 3) [] = v := by
    rw [hlen, h, show pre.length + 3 - 3 = pre.length + 0 by omega, getD_append_add]; rfl
  have h2 : (segments p).getD ((segments p).length - 2) [] = a := by
    rw [hlen, h, show pre.length + 3 - 2 = pre.length + 1 by omega, getD_append_add]; rfl
  have h1 : (segments p).getD ((segments p).length - 1) [] = b := by
    rw [hlen, h, show pre.length + 3 - 1 = pre.length + 2 by omega, getD_append_add]; rfl
  unfold parsePackagePath
  simp only [htake, h3, h2, h1]
  rw [if_neg (by omega)]

/-- The result of `parsePackagePath` when there are fewer than three segments. -/
theorem parsePackagePath_of_short (p : Str) (h : (segments p).length < 3) :
    parsePackagePath p =
      .error (.errorf "invalid package name with less than 3 dashes: %v" [.str p]) := by
  unfold parsePackagePath
  simp only [h, if_true]

/-- A list of at least three segments ends in three segments. -/
theorem exists_last_three (x : List Str) (h : 3 ≤ x.length) :
    ∃ pre v a b, x = pre ++ [v, a, b] := by
  have hx : x = x.take (x.length - 3) ++ x.drop (x.length - 3) := (List.take_append_drop _ _).symm
  have hd : (x.drop (x.length - 3)).length = 3 := by simp; omega
  match hm : x.drop (x.length - 3), hd with
  | [v, a, b], _ => exact ⟨x.take (x.length - 3), v, a, b, by rw [← hm]; exact hx⟩

/-- C1 (as amended): for a file name `<name>-<version>-<arch>-<build><suffix>` without a path
separator, where `<suffix>` is a known suffix, `<name>` is non-empty, `<version>`, `<arch>`
and `<build>` are non-empty and without a dash, and `<build>` does not end in a known suffix
listed after `<suffix>`, `parsePackagePath` succeeds with exactly these four fields. -/
theorem parsePackagePath_filename (name version arch build suf : Str) (pre post : List Str)
    (hsuf : suffixes = pre ++ suf :: post)
    (hbuild : ∀ v ∈ post, ¬ v <:+ build)
    (hname : name ≠ []) (hversion : version ≠ []) (harch : arch ≠ []) (hb : build ≠ [])
    (hvd : '-' ∉ version) (had : '-' ∉ arch) (hbd : '-' ∉ build)
    (hslash : '/' ∉ name ++ ['-'] ++ version ++ ['-'] ++ arch ++ ['-'] ++ build ++ suf) :
    parsePackagePath (name ++ ['-'] ++ version ++ ['-'] ++ arch ++ ['-'] ++ build ++ suf) =
      .ok { Name := name, Version := version, Arch := arch, Build := build,
            ModTime := Time.zero, CheckSum := [],
            Path := name ++ ['-'] ++ version ++ ['-'] ++ arch ++ ['-'] ++ build ++ suf } := by
  have hx : name ++ ['-'] ++ version ++ ['-'] ++ arch ++ ['-'] ++ build =
      name ++ '-' :: (version ++ '-' :: (arch ++ '-' :: build)) := by simp
  have hx2 : name ++ ['-'] ++ version ++ ['-'] ++ arch ++ ['-'] ++ build =
      (name ++ ['-'] ++ version ++ ['-'] ++ arch) ++ '-' :: build := by simp
  have hpost : ∀ v ∈ post,
      ¬ v <:+ name ++ ['-'] ++ version ++ ['-'] ++ arch ++ ['-'] ++ build := by
    intro v hv hvs
    have hvmem : v ∈ suffixes := by rw [hsuf]; simp [hv]
    rw [hx2] at hvs
    exact hbuild v hv (suffix_of_last_segment v _ build (suffixes_no_dash v hvmem) hvs)
  have hne : name ++ ['-'] ++ version ++ ['-'] ++ arch ++ ['-'] ++ build ++ suf ≠ [] := by
    cases name with
    | nil => exact absurd rfl hname
    | cons c cs => simp
  have hseg : segments (name ++ ['-'] ++ version ++ ['-'] ++ arch ++ ['-'] ++ build ++ suf) =
      strings.Split name ['-'] ++ [version, arch, build] := by
    unfold segments
    rw [Base_of_no_slash _ hne hslash, trimSuffixes_known _ suf pre post hsuf hpost, hx,
      Split_dash_append, Split_dash_append, Split_dash_append,
      Split_dash_of_not_mem _ hvd, Split_dash_of_not_mem _ had, Split_dash_of_not_mem _ hbd]
    rfl
  rw [parsePackagePath_of_segments _ _ _ _ _ hseg, Join_Split_dash]
  rw [if_neg (by simp [hname, hversion, harch, hb])]

/-- C1, witness: `foo-bar-1.0-x86_64-1.tar.gz`. -/
theorem parsePackagePath_filename_witness :
    parsePackagePath ("foo-bar".toList ++ ['-'] ++ "1.0".toList ++ ['-'] ++ "x86_64".toList ++
        ['-'] ++ "1".toList ++ ".tar.gz".toList) =
      .ok { Name := "foo-bar".toList, Version := "1.0".toList, Arch := "x86_64".toList,
            Build := "1".toList, ModTime := Time.zero, CheckSum := [],
            Path := "foo-bar".toList ++ ['-'] ++ "1.0".toList ++ ['-'] ++ "x86_64".toList ++
              ['-'] ++ "1".toList ++ ".tar.gz".toList } :=
  parsePackagePath_filename "foo-bar".toList "1.0".toList "x86_64".toList "1".toList
    ".tar.gz".toList [".tgz".toList, ".txz".toList, ".tbz2".toList]
    [".tar.xz".toList, ".tar.bz2".toList] (by decide) (by decide) (by decide) (by decide)
    (by decide) (by decide) (by decide) (by decide) (by decide) (by decide)

/-- C1, counterexample: in `foo-1.0-x86_64-1.tar.gz.tgz` the build `1.tar.gz` is non-empty
and has no dash and `.tgz` is a known suffix, yet the parsed `Build` is `1`: after `.tgz`
the later suffix `.tar.gz` is removed as well. -/
theorem parsePackagePath_filename_counterexample :
    ".tgz".toList ∈ suffixes ∧
    parsePackagePath ("foo".toList ++ ['-'] ++ "1.0".toList ++ ['-'] ++ "x86_64".toList ++
        ['-'] ++ "1.tar.gz".toList ++ ".tgz".toList) =
      .ok { Name := "foo".toList, Version := "1.0".toList, Arch := "x86_64".toList,
            Build := "1".toList, ModTime := Time.zero, CheckSum := [],
            Path := "foo-1.0-x86_64-1.tar.gz.tgz".toList } := by
  decide

/-- C2: `parsePackagePath` returns an error exactly when the segments of the base name are
fewer than three or one of the four derived fields (the segments before the last three
joined with dashes, and the last three segments) is empty; otherwise it succeeds with these
four fields, the input as `Path`, and no `ModTime` and `CheckSum`. -/
theorem parsePackagePath_error_iff (p : Str) :
    ((∃ err, parsePackagePath p = .error err) ↔
      ((segments p).length < 3 ∨
        ∃ pre v a b, segments p = pre ++ [v, a, b] ∧
          (strings.Join pre ['-'] = [] ∨ v = [] ∨ a = [] ∨ b = []))) ∧
    (∀ pre v a b, segments p = pre ++ [v, a, b] →
      ¬ (strings.Join pre ['-'] = [] ∨ v = [] ∨ a = [] ∨ b = []) →
      parsePackagePath p =
        .ok { Name := strings.Join pre ['-'], Version := v, Arch := a, Build := b,
              ModTime := Time.zero, CheckSum := [], Path := p }) := by
  refine ⟨⟨?_, ?_⟩, ?_⟩
  · rintro ⟨err, herr⟩
    by_cases hlen : (segments p).length < 3
    · exact Or.inl hlen
    · obtain ⟨pre, v, a, b, hx⟩ := exists_last_three (segments p) (by omega)
      refine Or.inr ⟨pre, v, a, b, hx, ?_⟩
      by_contra hno
      rw [parsePackagePath_of_segments _ _ _ _ _ hx, if_neg hno] at herr
      cases herr
  · rintro (hlen | ⟨pre, v, a, b, hx, hempty⟩)
    · exact ⟨_, parsePackagePath_of_short p hlen⟩
    · exact ⟨_, by rw [parsePackagePath_of_segments _ _ _ _ _ hx, if_pos hempty]⟩
  · intro pre v a b hx hno
    rw [parsePackagePath_of_segments _ _ _ _ _ hx, if_neg hno]

/-- C2, witness: `./slackware64/a/foo-1.0-x86_64-1.txz` has the segments `foo`, `1.0`,
`x86_64`, `1` and keeps its path. -/
theorem parsePackagePath_error_iff_witness :
    parsePackagePath "./slackware64/a/foo-1.0-x86_64-1.txz".toList =
      .ok { Name := "foo".toList, Version := "1.0".toList, Arch := "x86_64".toList,
            Build := "1".toList, ModTime := Time.zero, CheckSum := [],
            Path := "./slackware64/a/foo-1.0-x86_64-1.txz".toList } :=
  (parsePackagePath_error_iff "./slackware64/a/foo-1.0-x86_64-1.txz".toList).2
    ["foo".toList] "1.0".toList "x86_64".toList "1".toList (by decide) (by decide)

/-- C3 (as amended): when the segments of the base name are fewer than three, or one of
the last three segments is empty, or the segments before them joined with dashes are empty,
`parsePackagePath` fails. -/
theorem parsePackagePath_fails (p : Str)
    (h : (segments p).length < 3 ∨ [] ∈ (segments p).drop ((segments p).length - 3) ∨
      strings.Join ((segments p).take ((segments p).length - 3)) ['-'] = []) :
    ∃ err, parsePackagePath p = .error err := by
  by_cases hlen : (segments p).length < 3
  · exact ⟨_, parsePackagePath_of_short p hlen⟩
  · obtain ⟨pre, v, a, b, hx⟩ := exists_last_three (segments p) (by omega)
    have hl : (segments p).length - 3 = pre.length := by simp [hx]
    have hempty : strings.Join pre ['-'] = [] ∨ v = [] ∨ a = [] ∨ b = [] := by
      rcases h with h | h | h
      · exact absurd h hlen
      · rw [hl, hx, List.drop_left] at h
        simp only [List.mem_cons, List.mem_singleton, List.not_mem_nil, or_false] at h
        rcases h with h | h | h
        · exact Or.inr (Or.inl h.symm)
        · exact Or.inr (Or.inr (Or.inl h.symm))
        · exact Or.inr (Or.inr (Or.inr h.symm))
      · rw [hl, hx, List.take_left] at h
        exact Or.inl h
    exact ⟨_, by rw [parsePackagePath_of_segments _ _ _ _ _ hx, if_pos hempty]⟩

/-- C3, witness: `foo-1.0--1.tgz` has an empty segment among its last three. -/
theorem parsePackagePath_fails_witness :
    ∃ err, parsePackagePath "foo-1.0--1.tgz".toList = .error err :=
  parsePackagePath_fails "foo-1.0--1.tgz".toList (by decide)

/-- C3, counterexample: `a--b-1.0-x86_64-1.tgz` has an empty segment, inside the name part,
and parses. -/
theorem parsePackagePath_fails_counterexample :
    [] ∈ segments "a--b-1.0-x86_64-1.tgz".toList ∧
    parsePackagePath "a--b-1.0-x86_64-1.tgz".toList =
      .ok { Name := "a--b".toList, Version := "1.0".toList, Arch := "x86_64".toList,
            Build := "1".toList, ModTime := Time.zero, CheckSum := [],
            Path := "a--b-1.0-x86_64-1.tgz".toList } := by
  decide

/-! ## mergeInfos -/

theorem mergeInfos_eq_blocks (a b : info) :
    mergeInfos a b =
      (mergeStr "Name conflict: a: %v b: %v" a.Name b.Name).bind fun name =>
      (mergeStr "Version conflict: a: %v b: %v" a.Version b.Version).bind fun version =>
      (mergeStr "Arch conflict: a: %v b: %v" a.Arch b.Arch).bind fun arch =>
      (mergeStr "Build conflict: a: %v b: %v" a.Build b.Build).bind fun build =>
      (mergeTime a.ModTime b.ModTime).bind fun modTime =>
      (mergeStr "CheckSum conflict: a: %v b: %v" a.CheckSum b.CheckSum).bind fun checkSum =>
      (mergeStr "Path conflict: a: %v b: %v" a.Path b.Path).bind fun path =>
      .ok { Name := name, Version := version, Arch := arch, Build := build,
            ModTime := modTime, CheckSum := checkSum, Path := path } := rfl

theorem Time.IsZero_iff (t : Time) : t.IsZero = true ↔ t = Time.zero := by
  cases t with
  | mk sec nsec => simp [Time.IsZero, Time.zero]

theorem mergeStr_eq (format : String) (x y : Str) :
    mergeStr format x y =
      if x ≠ [] ∧ y ≠ [] ∧ x ≠ y then .error (Err.errorf format [.str x, .str y])
      else .ok (if x = [] then y else x) := by
  unfold mergeStr
  by_cases hx : x = [] <;> by_cases hy : y = [] <;> by_cases hxy : x = y <;>
    simp_all

theorem mergeTime_eq (x y : Time) :
    mergeTime x y =
      if x.IsZero = false ∧ y.IsZero = false ∧ x ≠ y then
        .error (Err.errorf "ModTime conflict: a: %v b: %v" [.time x, .time y])
      else .ok (if x.IsZero then y else x) := by
  unfold mergeTime
  by_cases hx : x = Time.zero <;> by_cases hy : y = Time.zero <;> by_cases hxy : x = y <;>
    cases hxz : x.IsZero <;> cases hyz : y.IsZero <;>
    simp_all [Time.IsZero_iff]

theorem conflictAt_Name (a b : info) :
    conflictAt a b .Name ↔ a.Name ≠ [] ∧ b.Name ≠ [] ∧ a.Name ≠ b.Name := by
  simp [conflictAt, info.get, Value.absent]

theorem conflictAt_Version (a b : info) :
    conflictAt a b .Version ↔ a.Version ≠ [] ∧ b.Version ≠ [] ∧ a.Version ≠ b.Version := by
  simp [conflictAt, info.get, Value.absent]

theorem conflictAt_Arch (a b : info) :
    conflictAt a b .Arch ↔ a.Arch ≠ [] ∧ b.Arch ≠ [] ∧ a.Arch ≠ b.Arch := by
  simp [conflictAt, info.get, Value.absent]

theorem conflictAt_Build (a b : info) :
    conflictAt a b .Build ↔ a.Build ≠ [] ∧ b.Build ≠ [] ∧ a.Build ≠ b.Build := by
  simp [conflictAt, info.get, Value.absent]

theorem conflictAt_ModTime (a b : info) :
    conflictAt a b .ModTime ↔
      a.ModTime.IsZero = false ∧ b.ModTime.IsZero = false ∧ a.ModTime ≠ b.ModTime := by
  simp [conflictAt, info.get, Value.absent]

theorem conflictAt_CheckSum (a b : info) :
    conflictAt a b .CheckSum ↔
      a.CheckSum ≠ [] ∧ b.CheckSum ≠ [] ∧ a.CheckSum ≠ b.CheckSum := by
  simp [conflictAt, info.get, Value.absent]

theorem conflictAt_Path (a b : info) :
    conflictAt a b .Path ↔ a.Path ≠ [] ∧ b.Path ≠ [] ∧ a.Path ≠ b.Path := by
  simp [conflictAt, info.get, Value.absent]

theorem bind_ite_error {α β : Type} (c : Prop) [Decidable c] (e : Err) (v : α)
    (f : α → Except Err β) :
    (if c then Except.error e else Except.ok v : Except Err α).bind f =
      if c then Except.error e else f v := by
  by_cases h : c <;> simp [h, Except.bind]

/-- The whole of `mergeInfos`: the error of the first field that conflicts, or the record of
the values present. -/
theorem mergeInfos_eq (a b : info) :
    mergeInfos a b =
      if conflictAt a b .Name then
        .error (.errorf "Name conflict: a: %v b: %v" [.str a.Name, .str b.Name])
      else if conflictAt a b .Version then
        .error (.errorf "Version conflict: a: %v b: %v" [.str a.Version, .str b.Version])
      else if conflictAt a b .Arch then
        .error (.errorf "Arch conflict: a: %v b: %v" [.str a.Arch, .str b.Arch])
      else if conflictAt a b .Build then
        .error (.errorf "Build conflict: a: %v b: %v" [.str a.Build, .str b.Build])
      else if conflictAt a b .ModTime then
        .error (.errorf "ModTime conflict: a: %v b: %v" [.time a.ModTime, .time b.ModTime])
      else if conflictAt a b .CheckSum then
        .error (.errorf "CheckSum conflict: a: %v b: %v" [.str a.CheckSum, .str b.CheckSum])
      else if conflictAt a b .Path then
        .error (.errorf "Path conflict: a: %v b: %v" [.str a.Path, .str b.Path])
      else
        .ok (coalesceInfos a b) := by
  rw [mergeInfos_eq_blocks]
  simp only [mergeStr_eq, mergeTime_eq, bind_ite_error]
  simp only [conflictAt_Name, conflictAt_Version, conflictAt_Arch, conflictAt_Build,
    conflictAt_ModTime, conflictAt_CheckSum, conflictAt_Path, coalesceInfos]

theorem mergeInfos_ok_iff (a b r : info) :
    mergeInfos a b = .ok r ↔ (∀ f, ¬ conflictAt a b f) ∧ r = coalesceInfos a b := by
  rw [mergeInfos_eq]
  split_ifs with h1 h2 h3 h4 h5 h6 h7
  · exact ⟨fun h => h.elim, fun h => absurd h1 (h.1 _)⟩
  · exact ⟨fun h => h.elim, fun h => absurd h2 (h.1 _)⟩
  · exact ⟨fun h => h.elim, fun h => absurd h3 (h.1 _)⟩
  · exact ⟨fun h => h.elim, fun h => absurd h4 (h.1 _)⟩
  · exact ⟨fun h => h.elim, fun h => absurd h5 (h.1 _)⟩
  · exact ⟨fun h => h.elim, fun h => absurd h6 (h.1 _)⟩
  · exact ⟨fun h => h.elim, fun h => absurd h7 (h.1 _)⟩
  · constructor
    · intro h
      refine ⟨fun f => by cases f <;> assumption, ?_⟩
      cases h
      rfl
    · rintro ⟨_, rfl⟩
      rfl

theorem mergeInfos_error_iff (a b : info) :
    (∃ err, mergeInfos a b = .error err) ↔ ∃ f, conflictAt a b f := by
  constructor
  · rintro ⟨err, herr⟩
    by_contra hno
    have hall : ∀ f, ¬ conflictAt a b f := fun f hf => hno ⟨f, hf⟩
    rw [((mergeInfos_ok_iff a b _).mpr ⟨hall, rfl⟩)] at herr
    cases herr
  · rintro ⟨f, hf⟩
    cases hm : mergeInfos a b with
    | error err => exact ⟨err, rfl⟩
    | ok r => exact absurd hf (((mergeInfos_ok_iff a b r).mp hm).1 f)

theorem conflictAt_symm (a b : info) (f : Field) : conflictAt a b f → conflictAt b a f :=
  fun h => ⟨h.2.1, h.1, fun e => h.2.2 e.symm⟩

theorem Value.absent_eq_of_absent (x y : Value) (f : Field) (a b : info)
    (hx : x = a.get f) (hy : y = b.get f)
    (h1 : x.absent = true) (h2 : y.absent = true) : x = y := by
  subst hx hy
  cases f <;> simp_all [info.get, Value.absent, Time.IsZero_iff]

theorem coalesceInfos_get (a b : info) (f : Field) :
    (coalesceInfos a b).get f = if (a.get f).absent then b.get f else a.get f := by
  cases f <;> simp only [coalesceInfos, info.get, Value.absent] <;> split_ifs <;> simp_all

theorem coalesceInfos_comm (a b : info) (h : ∀ f, ¬ conflictAt a b f) :
    coalesceInfos a b = coalesceInfos b a := by
  have key : ∀ f, (coalesceInfos a b).get f = (coalesceInfos b a).get f := by
    intro f
    rw [coalesceInfos_get, coalesceInfos_get]
    have hf := h f
    unfold conflictAt at hf
    cases ha : (a.get f).absent <;> cases hb : (b.get f).absent
    · simp only [ha, hb, true_and, not_not] at hf
      simp [hf]
    · simp
    · simp
    · simp only [if_true]
      exact (Value.absent_eq_of_absent _ _ f a b rfl rfl ha hb).symm
  have k1 := key .Name
  have k2 := key .Version
  have k3 := key .Arch
  have k4 := key .Build
  have k5 := key .ModTime
  have k6 := key .CheckSum
  have k7 := key .Path
  simp only [info.get, Value.str.injEq, Value.time.injEq] at k1 k2 k3 k4 k5 k6 k7
  cases hab : coalesceInfos a b
  cases hba : coalesceInfos b a
  simp_all

/-- C4: `mergeInfos` is the field-wise coalesce-or-conflict: it succeeds exactly when no
field is present on both sides with different values, with the reference record
`coalesceInfos` as result, in which every field has the value of the side on which it is
present and is absent when it is absent on both sides. -/
theorem mergeInfos_coalesce (a b : info) :
    ((∃ r, mergeInfos a b = .ok r) ↔ ∀ f, ¬ conflictAt a b f) ∧
    (∀ r, mergeInfos a b = .ok r →
      r = coalesceInfos a b ∧
      ∀ f, ((a.get f).absent = false → r.get f = a.get f) ∧
        ((b.get f).absent = false → r.get f = b.get f) ∧
        ((a.get f).absent = true → (b.get f).absent = true → (r.get f).absent = true)) := by
  constructor
  · constructor
    · rintro ⟨r, hr⟩
      exact ((mergeInfos_ok_iff a b r).mp hr).1
    · intro h
      exact ⟨_, (mergeInfos_ok_iff a b _).mpr ⟨h, rfl⟩⟩
  · intro r hr
    obtain ⟨hno, rfl⟩ := (mergeInfos_ok_iff a b r).mp hr
    refine ⟨rfl, fun f => ?_⟩
    rw [coalesceInfos_get]
    have hf := hno f
    unfold conflictAt at hf
    cases ha : (a.get f).absent <;> cases hb : (b.get f).absent
    · simp only [ha, hb, true_and, not_not] at hf
      simp [hf]
    · simp
    · simp
    · simp [hb]

/-- C4, witness: a record with a checksum only and one with a time only merge into the
record that has both. -/
theorem mergeInfos_coalesce_witness :
    mergeInfos ⟨"foo".toList, "1.0".toList, [], [], Time.zero, "abc".toList, []⟩
        ⟨"foo".toList, [], "x86_64".toList, [], ⟨60, 0⟩, [], "p".toList⟩ =
      .ok ⟨"foo".toList, "1.0".toList, "x86_64".toList, [], ⟨60, 0⟩, "abc".toList,
        "p".toList⟩ :=
  by
  obtain ⟨r, hr⟩ := (mergeInfos_coalesce
    ⟨"foo".toList, "1.0".toList, [], [], Time.zero, "abc".toList, []⟩
    ⟨"foo".toList, [], "x86_64".toList, [], ⟨60, 0⟩, [], "p".toList⟩).1.2
    (fun f => by cases f <;> decide)
  rw [hr, ((mergeInfos_coalesce _ _).2 r hr).1]
  decide

/-- C5: when some field has two different non-empty values, `mergeInfos` fails, and its
error is the conflict error of the first such field, in the order of `mergeInfos`, with the
two values of that field. -/
theorem mergeInfos_conflict (a b : info) (h : ∃ f, conflictAt a b f) :
    ∃ f, conflictAt a b f ∧ (∀ g, g.index < f.index → ¬ conflictAt a b g) ∧
      mergeInfos a b = .error (.errorf f.conflictFormat [a.get f, b.get f]) := by
  rw [mergeInfos_eq]
  by_cases h1 : conflictAt a b .Name
  · refine ⟨.Name, h1, fun g hg => ?_, by rw [if_pos h1]; rfl⟩
    cases g <;> exact absurd hg (by decide)
  by_cases h2 : conflictAt a b .Version
  · refine ⟨.Version, h2, fun g hg => ?_, by rw [if_neg h1, if_pos h2]; rfl⟩
    cases g <;> first | exact absurd hg (by decide) | assumption
  by_cases h3 : conflictAt a b .Arch
  · refine ⟨.Arch, h3, fun g hg => ?_, by rw [if_neg h1, if_neg h2, if_pos h3]; rfl⟩
    cases g <;> first | exact absurd hg (by decide) | assumption
  by_cases h4 : conflictAt a b .Build
  · refine ⟨.Build, h4, fun g hg => ?_,
      by rw [if_neg h1, if_neg h2, if_neg h3, if_pos h4]; rfl⟩
    cases g <;> first | exact absurd hg (by decide) | assumption
  by_cases h5 : conflictAt a b .ModTime
  · refine ⟨.ModTime, h5, fun g hg => ?_,
      by rw [if_neg h1, if_neg h2, if_neg h3, if_neg h4, if_pos h5]; rfl⟩
    cases g <;> first | exact absurd hg (by decide) | assumption
  by_cases h6 : conflictAt a b .CheckSum
  · refine ⟨.CheckSum, h6, fun g hg => ?_,
      by rw [if_neg h1, if_neg h2, if_neg h3, if_neg h4, if_neg h5, if_pos h6]; rfl⟩
    cases g <;> first | exact absurd hg (by decide) | assumption
  by_cases h7 : conflictAt a b .Path
  · refine ⟨.Path, h7, fun g hg => ?_,
      by rw [if_neg h1, if_neg h2, if_neg h3, if_neg h4, if_neg h5, if_neg h6, if_pos h7]; rfl⟩
    cases g <;> first | exact absurd hg (by decide) | assumption
  obtain ⟨f, hf⟩ := h
  cases f <;> contradiction

/-- C5, witness: records that are identical except for the versions `1.0` and `2.0` fail
with the error that names `Version` and carries `1.0` and `2.0`. -/
theorem mergeInfos_conflict_witness :
    mergeInfos ⟨"foo".toList, "1.0".toList, "x86_64".toList, "1".toList, Time.zero, [],
        "foo-1.0-x86_64-1.tgz".toList⟩
      ⟨"foo".toList, "2.0".toList, "x86_64".toList, "1".toList, Time.zero, [],
        "foo-1.0-x86_64-1.tgz".toList⟩ =
      .error (.errorf "Version conflict: a: %v b: %v"
        [.str "1.0".toList, .str "2.0".toList]) := by
  obtain ⟨f, hf, _, herr⟩ := mergeInfos_conflict
    ⟨"foo".toList, "1.0".toList, "x86_64".toList, "1".toList, Time.zero, [],
      "foo-1.0-x86_64-1.tgz".toList⟩
    ⟨"foo".toList, "2.0".toList, "x86_64".toList, "1".toList, Time.zero, [],
      "foo-1.0-x86_64-1.tgz".toList⟩ ⟨.Version, by decide⟩
  cases f <;> first | exact herr | exact absurd hf (by decide)

/-- C6: `mergeInfos` is commutative: when `mergeInfos a b` succeeds, `mergeInfos b a`
succeeds with the same record, and one fails exactly when the other does. -/
theorem mergeInfos_comm (a b : info) :
    (∀ r, mergeInfos a b = .ok r → mergeInfos b a = .ok r) ∧
    ((∃ err, mergeInfos a b = .error err) ↔ ∃ err, mergeInfos b a = .error err) := by
  constructor
  · intro r hr
    obtain ⟨hno, rfl⟩ := (mergeInfos_ok_iff a b r).mp hr
    exact (mergeInfos_ok_iff b a _).mpr
      ⟨fun f hf => hno f (conflictAt_symm b a f hf), coalesceInfos_comm a b hno⟩
  · rw [mergeInfos_error_iff, mergeInfos_error_iff]
    exact ⟨fun ⟨f, hf⟩ => ⟨f, conflictAt_symm a b f hf⟩,
      fun ⟨f, hf⟩ => ⟨f, conflictAt_symm b a f hf⟩⟩

/-- C6, witness: the record with a time only and the one with a checksum only, merged in
the other order. -/
theorem mergeInfos_comm_witness :
    mergeInfos ⟨"foo".toList, [], "x86_64".toList, [], ⟨60, 0⟩, [], "p".toList⟩
        ⟨"foo".toList, "1.0".toList, [], [], Time.zero, "abc".toList, []⟩ =
      .ok ⟨"foo".toList, "1.0".toList, "x86_64".toList, [], ⟨60, 0⟩, "abc".toList,
        "p".toList⟩ :=
  (mergeInfos_comm ⟨"foo".toList, "1.0".toList, [], [], Time.zero, "abc".toList, []⟩
    ⟨"foo".toList, [], "x86_64".toList, [], ⟨60, 0⟩, [], "p".toList⟩).1 _ (by decide)

/-- C7: `mergeInfos` is idempotent: merging a record with itself succeeds and returns it,
whichever of its fields are absent. -/
theorem mergeInfos_idem (a : info) : mergeInfos a a = .ok a := by
  rw [mergeInfos_ok_iff]
  refine ⟨fun f hf => hf.2.2 rfl, ?_⟩
  cases a
  simp [coalesceInfos]

/-! ## packageChecksums -/

theorem parsePackagePath_ok (p : Str) (i : info) (h : parsePackagePath p = .ok i) :
    i.ModTime = Time.zero ∧ i.CheckSum = [] ∧ i.Path = p := by
  by_cases hlen : (segments p).length < 3
  · rw [parsePackagePath_of_short p hlen] at h
    cases h
  · obtain ⟨pre, v, a, b, hx⟩ := exists_last_three (segments p) (by omega)
    rw [parsePackagePath_of_segments _ _ _ _ _ hx] at h
    split_ifs at h
    have h2 := Except.ok.inj h
    rw [← h2]
    exact ⟨rfl, rfl, rfl⟩

theorem mem_mapSet (m : Map) (k : Str) (v : info) (kv : Str × info) (h : kv ∈ mapSet m k v) :
    kv ∈ m ∨ kv = (k, v) := by
  induction m with
  | nil => simpa [mapSet] using h
  | cons e rest ih =>
    obtain ⟨k2, v2⟩ := e
    unfold mapSet at h
    split_ifs at h
    · rcases List.mem_cons.mp h with h | h
      · exact Or.inr h
      · exact Or.inl (List.mem_cons_of_mem _ h)
    · rcases List.mem_cons.mp h with h | h
      · exact Or.inl (h ▸ List.mem_cons_self _ _)
      · rcases ih h with h | h
        · exact Or.inl (List.mem_cons_of_mem _ h)
        · exact Or.inr h

theorem checksumsLine_CheckSum (prefixes : List Str) (pkgs out : Map) (line : Str)
    (hp : ∀ kv ∈ pkgs, kv.2.CheckSum = [])
    (h : checksumsLine prefixes pkgs line = .ok out) : ∀ kv ∈ out, kv.2.CheckSum = [] := by
  unfold checksumsLine at h
  simp only at h
  split_ifs at h
  · cases h; exact hp
  · cases h; exact hp
  · split at h
    · cases h
    · rename_i i hi
      cases h
      intro kv hkv
      rcases mem_mapSet _ _ _ _ hkv with h | h
      · exact hp kv h
      · rw [h]; exact (parsePackagePath_ok _ _ hi).2.1

theorem checksumsLoop_CheckSum (prefixes : List Str) (lines : List Str) (pkgs out : Map)
    (hp : ∀ kv ∈ pkgs, kv.2.CheckSum = [])
    (h : checksumsLoop prefixes lines pkgs = .ok out) : ∀ kv ∈ out, kv.2.CheckSum = [] := by
  induction lines generalizing pkgs with
  | nil =>
    simp only [checksumsLoop] at h
    cases h
    exact hp
  | cons line rest ih =>
    simp only [checksumsLoop] at h
    split at h
    · cases h
    · rename_i pkgs2 h2
      exact ih pkgs2 (checksumsLine_CheckSum prefixes pkgs pkgs2 line hp h2) h

/-- No entry of a map read by `packageChecksums` has a `CheckSum`: the first field of a line
is never stored. -/
theorem packageChecksums_CheckSum_empty (checksums prefixes : List Str) (out : Map)
    (h : packageChecksums checksums prefixes = .ok out) : ∀ kv ∈ out, kv.2.CheckSum = [] :=
  checksumsLoop_CheckSum prefixes _ [] out (fun _ hkv => absurd hkv (List.not_mem_nil _)) h

/-- C8, the code at the failing input: after the header, the accepted line with the
checksum `d41d8cd98f00b204e9800998ecf8427e` and the path `./a/foo-1.0-x86_64-1.tgz` gives
the entry of that path an empty `CheckSum`. -/
theorem packageChecksums_drops_checksum :
    packageChecksums
      ["MD5 message digest                Filename".toList,
       "d41d8cd98f00b204e9800998ecf8427e  ./a/foo-1.0-x86_64-1.tgz".toList] [] =
      .ok [("./a/foo-1.0-x86_64-1.tgz".toList,
        { Name := "foo".toList, Version := "1.0".toList, Arch := "x86_64".toList,
          Build := "1".toList, ModTime := Time.zero, CheckSum := [],
          Path := "./a/foo-1.0-x86_64-1.tgz".toList })] := by
  decide

/-! ## Lines of the manifests -/

theorem Split_spaces_of_no_space (p : Str) (h : ' ' ∉ p) :
    strings.Split p [' ', ' '] = [p] := by
  induction p with
  | nil => rfl
  | cons c cs ih =>
    simp only [List.mem_cons, not_or] at h
    have hc : ¬ ' ' = c := h.1
    have ih2 := ih h.2
    have hpre : List.isPrefixOf [' ', ' '] (c :: cs) = false := by
      simp [List.isPrefixOf, hc]
    unfold strings.Split at ih2 ⊢
    unfold strings.SplitFrom
    rw [hpre]
    simp only [Bool.false_eq_true, if_false, ih2, strings.consHead]

/-- The line `c`, two spaces, `p` splits into `c` and `p` when `c` has no two consecutive
spaces and no space at its end, and `p` has no space. -/
theorem Split_spaces_line (c p : Str) (hc1 : ¬ [' ', ' '] <:+: c) (hc2 : ¬ [' '] <:+ c)
    (hp : ' ' ∉ p) : strings.Split (c ++ [' ', ' '] ++ p) [' ', ' '] = [c, p] := by
  induction c with
  | nil =>
    have h := Split_spaces_of_no_space p hp
    unfold strings.Split at h ⊢
    simp only [List.nil_append, List.cons_append, strings.SplitFrom, List.isPrefixOf,
      beq_self_eq_true, Bool.and_self, if_true, List.length_cons, List.length_nil]
    show [] :: strings.SplitFrom [' ', ' '] p 0 = [[], p]
    rw [h]
  | cons x cs ih =>
    have i1 : ¬ [' ', ' '] <:+: cs := fun hi => hc1 (hi.trans (List.infix_cons (List.infix_refl _)))
    have i2 : ¬ [' '] <:+ cs := fun hi => hc2 (hi.trans (List.suffix_cons x cs))
    have ih2 := ih i1 i2
    have hpre : List.isPrefixOf [' ', ' '] (x :: (cs ++ [' ', ' '] ++ p)) = false := by
      by_cases hx : x = ' '
      · subst hx
        cases cs with
        | nil => exact absurd (List.suffix_refl _) hc2
        | cons y ys =>
          have hy : ¬ ' ' = y := by
            intro e
            subst e
            exact hc1 ⟨[], ys, rfl⟩
          simp [List.isPrefixOf, hy]
      · have hx2 : ¬ ' ' = x := fun e => hx e.symm
        simp [List.isPrefixOf, hx2]
    unfold strings.Split at ih2 ⊢
    rw [show (x :: cs) ++ [' ', ' '] ++ p = x :: (cs ++ [' ', ' '] ++ p) by simp]
    unfold strings.SplitFrom
    rw [hpre]
    simp only [Bool.false_eq_true, if_false, ih2, strings.consHead]

theorem FieldsFrom_no_space (s cur : Str) (hcur : ∀ c ∈ cur, unicode.IsSpace c = false) :
    ∀ f ∈ strings.FieldsFrom s cur, ∀ c ∈ f, unicode.IsSpace c = false := by
  induction s generalizing cur with
  | nil =>
    intro f hf
    unfold strings.FieldsFrom at hf
    split_ifs at hf
    · exact absurd hf (List.not_mem_nil _)
    · rw [List.mem_singleton.mp hf]; exact hcur
  | cons d ds ih =>
    intro f hf
    unfold strings.FieldsFrom at hf
    split_ifs at hf with h1 h2
    · exact ih [] (fun _ hc => absurd hc (List.not_mem_nil _)) f hf
    · rcases List.mem_cons.mp hf with h | h
      · rw [h]; exact hcur
      · exact ih [] (fun _ hc => absurd hc (List.not_mem_nil _)) f h
    · refine ih (cur ++ [d]) (fun c hc => ?_) f hf
      rcases List.mem_append.mp hc with h | h
      · exact hcur c h
      · rw [List.mem_singleton.mp h]; simpa using h1

/-- A field of `strings.Fields` contains no space. -/
theorem Fields_no_space (s f : Str) (hf : f ∈ strings.Fields s) : ' ' ∉ f := by
  intro h
  have := FieldsFrom_no_space s [] (fun _ hc => absurd hc (List.not_mem_nil _)) f hf ' ' h
  exact absurd this (by decide)

/-! ## packageTimestamps -/

/-- The body of the loop of `packageTimestamps` on a line of eight fields whose path passes
the suffix and prefix filters. -/
theorem timestampsLine_of_accepted (prefixes : List Str) (out : Map) (line : Str)
    (h8 : (strings.Fields line).length = 8)
    (hsuf : hasSuffixes ((strings.Fields line).getD 7 []) suffixes = true)
    (hpre : prefixes = [] ∨ hasPrefixes ((strings.Fields line).getD 7 []) prefixes = true) :
    timestampsLine prefixes out line =
      if (mapGet out ((strings.Fields line).getD 7 [])).isSome then
        .error (.errorf "duplicate entry in filelist: %v"
          [.str ((strings.Fields line).getD 7 [])])
      else
        match parsePackagePath ((strings.Fields line).getD 7 []) with
        | .error err => .error err
        | .ok i =>
          match time.Parse ((strings.Fields line).getD 5 [] ++ [' '] ++
              (strings.Fields line).getD 6 []) with
          | none => .error (.timeParse ((strings.Fields line).getD 5 [] ++ [' '] ++
              (strings.Fields line).getD 6 []))
          | some modTime =>
            .ok (mapSet out ((strings.Fields line).getD 7 []) { i with ModTime := modTime }) := by
  have hfilter : (prefixes.length ≠ 0 &&
      !hasPrefixes ((strings.Fields line).getD 7 []) prefixes) = false := by
    rcases hpre with h | h
    · simp [h]
    · rw [h]
      simp
  unfold timestampsLine
  simp only [h8, hsuf, hfilter, ne_eq, not_true_eq_false, if_false, Bool.not_true,
    Bool.false_eq_true]

theorem mapGet_mapSet_self (m : Map) (k : Str) (v : info) : mapGet (mapSet m k v) k = some v := by
  induction m with
  | nil => simp [mapSet, mapGet]
  | cons e rest ih =>
    obtain ⟨k2, v2⟩ := e
    unfold mapSet
    split_ifs with h
    · simp [mapGet]
    · simp [mapGet, h, ih]

theorem mapGet_mapSet_isSome (m : Map) (k p : Str) (v : info) (h : (mapGet m p).isSome) :
    (mapGet (mapSet m k v) p).isSome := by
  induction m with
  | nil => simp [mapGet] at h
  | cons e rest ih =>
    obtain ⟨k2, v2⟩ := e
    unfold mapSet
    split_ifs with h1
    · subst h1
      unfold mapGet at h ⊢
      split_ifs at h ⊢ with h2
      · rfl
      · exact h
    · unfold mapGet at h ⊢
      split_ifs at h ⊢ with h2
      · rfl
      · exact ih h

/-- A line of the timestamp manifest never removes a key of the map. -/
theorem timestampsLine_keeps (prefixes : List Str) (out out2 : Map) (line p : Str)
    (h : timestampsLine prefixes out line = .ok out2) (hp : (mapGet out p).isSome) :
    (mapGet out2 p).isSome := by
  unfold timestampsLine at h
  simp only at h
  split_ifs at h
  · cases h; exact hp
  · cases h; exact hp
  · cases h; exact hp
  · split at h
    · cases h
    · split at h
      · cases h
      · cases h
        exact mapGet_mapSet_isSome _ _ _ _ hp

/-- Once a path is a key of the map, a later accepted line with that path stops the loop of
`packageTimestamps` with an error. -/
theorem timestampsLoop_duplicate (prefixes : List Str) (lines : List Str) (out : Map)
    (b : Str) (hb : b ∈ lines)
    (h8 : (strings.Fields b).length = 8)
    (hsuf : hasSuffixes ((strings.Fields b).getD 7 []) suffixes = true)
    (hpre : prefixes = [] ∨ hasPrefixes ((strings.Fields b).getD 7 []) prefixes = true)
    (hp : (mapGet out ((strings.Fields b).getD 7 [])).isSome) :
    ∃ err, timestampsLoop prefixes lines out = .error err := by
  induction lines generalizing out with
  | nil => exact absurd hb (List.not_mem_nil _)
  | cons line rest ih =>
    unfold timestampsLoop
    cases hstep : timestampsLine prefixes out line with
    | error err => exact ⟨err, rfl⟩
    | ok out2 =>
      rcases List.mem_cons.mp hb with h | h
      · subst h
        rw [timestampsLine_of_accepted prefixes out b h8 hsuf hpre, if_pos hp] at hstep
        cases hstep
      · exact ih out2 h (timestampsLine_keeps prefixes out out2 line _ hstep hp)

/-- After an accepted line that does not stop the loop, its path is a key of the map. -/
theorem timestampsLine_sets (prefixes : List Str) (out out2 : Map) (a : Str)
    (h8 : (strings.Fields a).length = 8)
    (hsuf : hasSuffixes ((strings.Fields a).getD 7 []) suffixes = true)
    (hpre : prefixes = [] ∨ hasPrefixes ((strings.Fields a).getD 7 []) prefixes = true)
    (h : timestampsLine prefixes out a = .ok out2) :
    (mapGet out2 ((strings.Fields a).getD 7 [])).isSome := by
  rw [timestampsLine_of_accepted prefixes out a h8 hsuf hpre] at h
  split_ifs at h
  split at h
  · cases h
  · split at h
    · cases h
    · cases h
      rw [mapGet_mapSet_self]
      rfl

/-! ## readRepository -/

/-- Merging a record without a time with the same record with a time gives the latter. -/
theorem mergeInfos_with_time (i : info) (tm : Time) (h0 : i.ModTime = Time.zero) :
    mergeInfos i { i with ModTime := tm } = .ok { i with ModTime := tm } := by
  rw [mergeInfos_ok_iff]
  constructor
  · intro f hf
    cases f
    case ModTime =>
      have h1 := hf.1
      simp [info.get, Value.absent, h0, Time.IsZero, Time.zero] at h1
    all_goals exact hf.2.2 rfl
  · cases i with
    | mk n v a b t c p =>
      simp only at h0
      subst h0
      simp [coalesceInfos, Time.IsZero, Time.zero]

/-! ## Lemmas on maps -/

theorem mapGet_some_mem (m : Map) (k : Str) (v : info) (h : mapGet m k = some v) :
    (k, v) ∈ m := by
  induction m with
  | nil => simp [mapGet] at h
  | cons e rest ih =>
    obtain ⟨k2, v2⟩ := e
    unfold mapGet at h
    split_ifs at h with h1
    · cases h
      subst h1
      exact List.mem_cons_self _ _
    · exact List.mem_cons_of_mem _ (ih h)

theorem mapGet_none_not_mem (m : Map) (k : Str) (h : mapGet m k = none) :
    ∀ kv ∈ m, kv.1 ≠ k := by
  induction m with
  | nil => intro kv hkv; exact absurd hkv (List.not_mem_nil _)
  | cons e rest ih =>
    obtain ⟨k2, v2⟩ := e
    unfold mapGet at h
    split_ifs at h with h1
    intro kv hkv
    rcases List.mem_cons.mp hkv with h2 | h2
    · rw [h2]; exact h1
    · exact ih h kv h2

theorem mapGet_of_mem (m : Map) (k : Str) (v : info) (hnd : (m.map Prod.fst).Nodup)
    (h : (k, v) ∈ m) : mapGet m k = some v := by
  induction m with
  | nil => exact absurd h (List.not_mem_nil _)
  | cons e rest ih =>
    obtain ⟨k2, v2⟩ := e
    simp only [List.map_cons, List.nodup_cons] at hnd
    unfold mapGet
    rcases List.mem_cons.mp h with h2 | h2
    · cases h2
      simp
    · have hne : ¬ k2 = k := by
        intro e
        subst e
        exact hnd.1 (List.mem_map.mpr ⟨(k2, v), h2, rfl⟩)
      rw [if_neg hne]
      exact ih hnd.2 h2

theorem mapGet_isSome_of_mem (m : Map) (kv : Str × info) (h : kv ∈ m) :
    (mapGet m kv.1).isSome := by
  cases hg : mapGet m kv.1 with
  | none => exact absurd rfl (mapGet_none_not_mem m kv.1 hg kv h)
  | some v => rfl

theorem mapGet_mapSet_ne (m : Map) (k p : Str) (v : info) (h : k ≠ p) :
    mapGet (mapSet m k v) p = mapGet m p := by
  induction m with
  | nil => simp [mapSet, mapGet, h]
  | cons e rest ih =>
    obtain ⟨k2, v2⟩ := e
    unfold mapSet
    split_ifs with h1
    · subst h1
      simp [mapGet, h]
    · unfold mapGet
      rw [ih]

theorem mem_mapSet_self (m : Map) (k : Str) (v : info) : (k, v) ∈ mapSet m k v :=
  mapGet_some_mem _ _ _ (mapGet_mapSet_self m k v)

theorem mem_mapSet_of_ne (m : Map) (k : Str) (v : info) (kv : Str × info) (h : kv ∈ m)
    (hne : kv.1 ≠ k) : kv ∈ mapSet m k v := by
  induction m with
  | nil => exact absurd h (List.not_mem_nil _)
  | cons e rest ih =>
    obtain ⟨k2, v2⟩ := e
    unfold mapSet
    rcases List.mem_cons.mp h with h2 | h2
    · subst h2
      rw [if_neg hne]
      exact List.mem_cons_self _ _
    · split_ifs with h1
      · exact List.mem_cons_of_mem _ h2
      · exact List.mem_cons_of_mem _ (ih h2)

theorem mapSet_keys (m : Map) (k : Str) (v : info) :
    (mapSet m k v).map Prod.fst =
      if k ∈ m.map Prod.fst then m.map Prod.fst else m.map Prod.fst ++ [k] := by
  induction m with
  | nil => simp [mapSet]
  | cons e rest ih =>
    obtain ⟨k2, v2⟩ := e
    unfold mapSet
    by_cases h1 : k2 = k
    · subst h1
      rw [if_pos rfl]
      simp only [List.map_cons, List.mem_cons, true_or, if_true]
    · have h2 : ¬ k = k2 := fun e => h1 e.symm
      rw [if_neg h1]
      simp only [List.map_cons, ih, List.mem_cons, h2, false_or]
      split_ifs <;> simp

theorem mapSet_nodup (m : Map) (k : Str) (v : info) (h : (m.map Prod.fst).Nodup) :
    ((mapSet m k v).map Prod.fst).Nodup := by
  rw [mapSet_keys]
  split_ifs with h1
  · exact h
  · rw [List.nodup_append]
    exact ⟨h, List.nodup_singleton k, by
      intro a ha hb
      rw [List.mem_singleton.mp hb] at ha
      exact h1 ha⟩

/-! ## What the two readers put into their maps -/

theorem checksumsLine_entries (prefixes : List Str) (pkgs out : Map) (line : Str)
    (hp : ∀ kv ∈ pkgs, parsePackagePath kv.1 = .ok kv.2)
    (hnd : (pkgs.map Prod.fst).Nodup)
    (h : checksumsLine prefixes pkgs line = .ok out) :
    (∀ kv ∈ out, parsePackagePath kv.1 = .ok kv.2) ∧ (out.map Prod.fst).Nodup := by
  unfold checksumsLine at h
  simp only at h
  split_ifs at h
  · cases h; exact ⟨hp, hnd⟩
  · cases h; exact ⟨hp, hnd⟩
  · split at h
    · cases h
    · rename_i i hi
      cases h
      refine ⟨fun kv hkv => ?_, mapSet_nodup _ _ _ hnd⟩
      rcases mem_mapSet _ _ _ _ hkv with h | h
      · exact hp kv h
      · rw [h]; exact hi

theorem checksumsLoop_entries (prefixes : List Str) (lines : List Str) (pkgs out : Map)
    (hp : ∀ kv ∈ pkgs, parsePackagePath kv.1 = .ok kv.2)
    (hnd : (pkgs.map Prod.fst).Nodup)
    (h : checksumsLoop prefixes lines pkgs = .ok out) :
    (∀ kv ∈ out, parsePackagePath kv.1 = .ok kv.2) ∧ (out.map Prod.fst).Nodup := by
  induction lines generalizing pkgs with
  | nil =>
    simp only [checksumsLoop] at h
    cases h
    exact ⟨hp, hnd⟩
  | cons line rest ih =>
    simp only [checksumsLoop] at h
    split at h
    · cases h
    · rename_i pkgs2 h2
      obtain ⟨hp2, hnd2⟩ := checksumsLine_entries prefixes pkgs pkgs2 line hp hnd h2
      exact ih pkgs2 hp2 hnd2 h

/-- Every entry of a map read by `packageChecksums` is the parse of its key, and no key
occurs twice. -/
theorem packageChecksums_entries (checksums prefixes : List Str) (out : Map)
    (h : packageChecksums checksums prefixes = .ok out) :
    (∀ kv ∈ out, parsePackagePath kv.1 = .ok kv.2) ∧ (out.map Prod.fst).Nodup :=
  checksumsLoop_entries prefixes _ [] out (fun _ hkv => absurd hkv (List.not_mem_nil _))
    List.nodup_nil h

theorem timestampsLine_entries (prefixes : List Str) (out out2 : Map) (line : Str)
    (hp : ∀ kv ∈ out, ∃ i, parsePackagePath kv.1 = .ok i ∧
      kv.2 = { i with ModTime := kv.2.ModTime })
    (hnd : (out.map Prod.fst).Nodup)
    (h : timestampsLine prefixes out line = .ok out2) :
    (∀ kv ∈ out2, ∃ i, parsePackagePath kv.1 = .ok i ∧
      kv.2 = { i with ModTime := kv.2.ModTime }) ∧ (out2.map Prod.fst).Nodup := by
  unfold timestampsLine at h
  simp only at h
  split_ifs at h
  · cases h; exact ⟨hp, hnd⟩
  · cases h; exact ⟨hp, hnd⟩
  · cases h; exact ⟨hp, hnd⟩
  · split at h
    · cases h
    · rename_i i hi
      split at h
      · cases h
      · cases h
        refine ⟨fun kv hkv => ?_, mapSet_nodup _ _ _ hnd⟩
        rcases mem_mapSet _ _ _ _ hkv with h | h
        · exact hp kv h
        · rw [h]; exact ⟨i, hi, rfl⟩

theorem timestampsLoop_entries (prefixes : List Str) (lines : List Str) (out out2 : Map)
    (hp : ∀ kv ∈ out, ∃ i, parsePackagePath kv.1 = .ok i ∧
      kv.2 = { i with ModTime := kv.2.ModTime })
    (hnd : (out.map Prod.fst).Nodup)
    (h : timestampsLoop prefixes lines out = .ok out2) :
    (∀ kv ∈ out2, ∃ i, parsePackagePath kv.1 = .ok i ∧
      kv.2 = { i with ModTime := kv.2.ModTime }) ∧ (out2.map Prod.fst).Nodup := by
  induction lines generalizing out with
  | nil =>
    simp only [timestampsLoop] at h
    cases h
    exact ⟨hp, hnd⟩
  | cons line rest ih =>
    simp only [timestampsLoop] at h
    split at h
    · cases h
    · rename_i out3 h2
      obtain ⟨hp2, hnd2⟩ := timestampsLine_entries prefixes out out3 line hp hnd h2
      exact ih out3 hp2 hnd2 h

/-- Every entry of a map read by `packageTimestamps` is the parse of its key with a time,
and no key occurs twice. -/
theorem packageTimestamps_entries (filelist prefixes : List Str) (out : Map)
    (h : packageTimestamps filelist prefixes = .ok out) :
    (∀ kv ∈ out, ∃ i, parsePackagePath kv.1 = .ok i ∧
      kv.2 = { i with ModTime := kv.2.ModTime }) ∧ (out.map Prod.fst).Nodup :=
  timestampsLoop_entries prefixes _ [] out (fun _ hkv => absurd hkv (List.not_mem_nil _))
    List.nodup_nil h

/-- The entries of the two readers for the same path merge into the entry with the time. -/
theorem mergeInfos_of_readers (filelist checksums prefixes : List Str) (tsPkgs csPkgs : Map)
    (hts : packageTimestamps filelist prefixes = .ok tsPkgs)
    (hcs : packageChecksums checksums prefixes = .ok csPkgs)
    (k : Str) (v w : info) (hv : (k, v) ∈ csPkgs) (hw : mapGet tsPkgs k = some w) :
    parsePackagePath k = .ok v ∧ w = { v with ModTime := w.ModTime } ∧
      mergeInfos v w = .ok w := by
  have h1 := (packageChecksums_entries checksums prefixes csPkgs hcs).1 (k, v) hv
  obtain ⟨i, hi, hwi⟩ :=
    (packageTimestamps_entries filelist prefixes tsPkgs hts).1 (k, w) (mapGet_some_mem _ _ _ hw)
  simp only at h1 hi hwi
  rw [h1] at hi
  cases hi
  refine ⟨h1, hwi, ?_⟩
  have := mergeInfos_with_time v w.ModTime (parsePackagePath_ok k v h1).1
  rw [← hwi] at this
  exact this

/-! ## The merging loop of readRepository -/

theorem reconcileEntry_missing (tsPkgs newestPkgs : Map) (kv : Str × info)
    (h : mapGet tsPkgs kv.1 = none) :
    reconcileEntry tsPkgs newestPkgs kv =
      .error (.errorf "package in checksums not found in timestamps: %v" [.str kv.1]) := by
  unfold reconcileEntry
  rw [h]

/-- A path without a timestamp entry stops the loop with an error. -/
theorem reconcileLoop_fails (tsPkgs : Map) (entries : List (Str × info)) (newestPkgs : Map)
    (hmiss : ∃ kv ∈ entries, mapGet tsPkgs kv.1 = none) :
    ∃ err, reconcileLoop tsPkgs entries newestPkgs = .error err := by
  induction entries generalizing newestPkgs with
  | nil =>
    obtain ⟨kv, hkv, _⟩ := hmiss
    exact absurd hkv (List.not_mem_nil _)
  | cons e rest ih =>
    unfold reconcileLoop
    cases hstep : reconcileEntry tsPkgs newestPkgs e with
    | error err => exact ⟨err, rfl⟩
    | ok newest2 =>
      obtain ⟨kv, hkv, hnone⟩ := hmiss
      rcases List.mem_cons.mp hkv with h | h
      · subst h
        rw [reconcileEntry_missing _ _ _ hnone] at hstep
        cases hstep
      · exact ih newest2 ⟨kv, h, hnone⟩

/-- When the entries that have a timestamp entry merge without a conflict, the only error
of the loop is that of a path without a timestamp entry. -/
theorem reconcileLoop_error (tsPkgs : Map) (entries : List (Str × info)) (newestPkgs : Map)
    (err : Err)
    (hmerge : ∀ kv ∈ entries, ∀ w, mapGet tsPkgs kv.1 = some w →
      ∃ r, mergeInfos kv.2 w = .ok r)
    (h : reconcileLoop tsPkgs entries newestPkgs = .error err) :
    ∃ kv ∈ entries, mapGet tsPkgs kv.1 = none ∧
      err = .errorf "package in checksums not found in timestamps: %v" [.str kv.1] := by
  induction entries generalizing newestPkgs with
  | nil =>
    simp only [reconcileLoop] at h
    cases h
  | cons e rest ih =>
    unfold reconcileLoop at h
    cases hstep : reconcileEntry tsPkgs newestPkgs e with
    | error err2 =>
      rw [hstep] at h
      simp only at h
      cases h
      cases hg : mapGet tsPkgs e.1 with
      | none =>
        rw [reconcileEntry_missing _ _ _ hg] at hstep
        cases hstep
        exact ⟨e, List.mem_cons_self _ _, hg, rfl⟩
      | some w =>
        obtain ⟨r, hr⟩ := hmerge e (List.mem_cons_self _ _) w hg
        unfold reconcileEntry at hstep
        rw [hg] at hstep
        simp only [hr] at hstep
        split at hstep
        · cases hstep
        · split_ifs at hstep
    | ok newest2 =>
      rw [hstep] at h
      simp only at h
      obtain ⟨kv, hkv, hnone, herr⟩ :=
        ih newest2 (fun kv hkv => hmerge kv (List.mem_cons_of_mem _ hkv)) h
      exact ⟨kv, List.mem_cons_of_mem _ hkv, hnone, herr⟩

theorem reconcile_error_iff_loop (tsPkgs : Map) (entries : List (Str × info)) (err : Err) :
    reconcile tsPkgs entries = .error err ↔ reconcileLoop tsPkgs entries [] = .error err := by
  unfold reconcile
  cases reconcileLoop tsPkgs entries [] with
  | error e => simp
  | ok m => simp

/-- C14: when some path is a key of the checksum map and not of the timestamp map, the
reconciliation fails and returns no records, for all maps and every order in which the
checksum map is visited; for the maps that the two readers produce the error is
`package in checksums not found in timestamps` for such a path. -/
theorem reconcile_missing_timestamp :
    (∀ (tsPkgs : Map) (entries : List (Str × info)),
      (∃ kv ∈ entries, mapGet tsPkgs kv.1 = none) →
        ∃ err, reconcile tsPkgs entries = .error err) ∧
    (∀ (filelist checksums prefixes : List Str) (tsPkgs csPkgs : Map)
      (entries : List (Str × info)),
      packageTimestamps filelist prefixes = .ok tsPkgs →
      packageChecksums checksums prefixes = .ok csPkgs →
      entries.Perm csPkgs →
      (∃ k, (mapGet csPkgs k).isSome ∧ mapGet tsPkgs k = none) →
        ∃ k, (mapGet csPkgs k).isSome ∧ mapGet tsPkgs k = none ∧
          reconcile tsPkgs entries =
            .error (.errorf "package in checksums not found in timestamps: %v" [.str k])) := by
  constructor
  · intro tsPkgs entries hmiss
    obtain ⟨err, herr⟩ := reconcileLoop_fails tsPkgs entries [] hmiss
    exact ⟨err, (reconcile_error_iff_loop _ _ _).mpr herr⟩
  · intro filelist checksums prefixes tsPkgs csPkgs entries hts hcs hperm hmiss
    obtain ⟨k, hk, hnone⟩ := hmiss
    have hmem : ∃ kv ∈ entries, mapGet tsPkgs kv.1 = none := by
      cases hg : mapGet csPkgs k with
      | none => rw [hg] at hk; cases hk
      | some v => exact ⟨(k, v), hperm.symm.subset (mapGet_some_mem _ _ _ hg), hnone⟩
    obtain ⟨err, herr⟩ := reconcileLoop_fails tsPkgs entries [] hmem
    have hmerge : ∀ kv ∈ entries, ∀ w, mapGet tsPkgs kv.1 = some w →
        ∃ r, mergeInfos kv.2 w = .ok r := fun kv hkv w hw =>
      ⟨w, (mergeInfos_of_readers filelist checksums prefixes tsPkgs csPkgs hts hcs kv.1 kv.2 w
        (hperm.subset hkv) hw).2.2⟩
    obtain ⟨kv, hkv, hkvnone, rfl⟩ := reconcileLoop_error tsPkgs entries [] err hmerge herr
    exact ⟨kv.1, mapGet_isSome_of_mem csPkgs kv (hperm.subset hkv), hkvnone,
      (reconcile_error_iff_loop _ _ _).mpr herr⟩

/-- C14, witness: the checksum manifest lists `bar`, the timestamp manifest does not. -/
theorem reconcile_missing_timestamp_witness :
    ∃ k, (mapGet [("./a/foo-1.0-x86_64-1.tgz".toList,
            ⟨"foo".toList, "1.0".toList, "x86_64".toList, "1".toList, Time.zero, [],
              "./a/foo-1.0-x86_64-1.tgz".toList⟩),
          ("./a/bar-2.0-x86_64-1.tgz".toList,
            ⟨"bar".toList, "2.0".toList, "x86_64".toList, "1".toList, Time.zero, [],
              "./a/bar-2.0-x86_64-1.tgz".toList⟩)] k).isSome ∧
      mapGet [("./a/foo-1.0-x86_64-1.tgz".toList,
            ⟨"foo".toList, "1.0".toList, "x86_64".toList, "1".toList, ⟨63713531040, 0⟩, [],
              "./a/foo-1.0-x86_64-1.tgz".toList⟩)] k = none ∧
      reconcile [("./a/foo-1.0-x86_64-1.tgz".toList,
            ⟨"foo".toList, "1.0".toList, "x86_64".toList, "1".toList, ⟨63713531040, 0⟩, [],
              "./a/foo-1.0-x86_64-1.tgz".toList⟩)]
        [("./a/foo-1.0-x86_64-1.tgz".toList,
            ⟨"foo".toList, "1.0".toList, "x86_64".toList, "1".toList, Time.zero, [],
              "./a/foo-1.0-x86_64-1.tgz".toList⟩),
          ("./a/bar-2.0-x86_64-1.tgz".toList,
            ⟨"bar".toList, "2.0".toList, "x86_64".toList, "1".toList, Time.zero, [],
              "./a/bar-2.0-x86_64-1.tgz".toList⟩)] =
        .error (.errorf "package in checksums not found in timestamps: %v" [.str k]) :=
  reconcile_missing_timestamp.2
    ["-rw-r--r-- 1 root root 10 2020-01-02 03:04 ./a/foo-1.0-x86_64-1.tgz".toList]
    ["MD5 message digest                Filename".toList,
      "abc  ./a/foo-1.0-x86_64-1.tgz".toList, "def  ./a/bar-2.0-x86_64-1.tgz".toList]
    [] _ _ _ (by decide) (by decide) (List.Perm.refl _)
    ⟨"./a/bar-2.0-x86_64-1.tgz".toList, by decide, by decide⟩

/-- C20: for the maps that `packageTimestamps` and `packageChecksums` read, the entries of a
path that is a key of both are the parse of that path, the timestamp entry with its time
added, and `mergeInfos` of the two succeeds; so the reconciliation can only fail with the
error of a path that has no timestamp entry. -/
theorem mergeInfos_conflict_unreachable (filelist checksums prefixes : List Str)
    (tsPkgs csPkgs : Map)
    (hts : packageTimestamps filelist prefixes = .ok tsPkgs)
    (hcs : packageChecksums checksums prefixes = .ok csPkgs) :
    (∀ k v w, mapGet csPkgs k = some v → mapGet tsPkgs k = some w →
      parsePackagePath k = .ok v ∧ w = { v with ModTime := w.ModTime } ∧
        ∃ r, mergeInfos v w = .ok r) ∧
    (∀ entries err, entries.Perm csPkgs → reconcile tsPkgs entries = .error err →
      ∃ k, (mapGet csPkgs k).isSome ∧ mapGet tsPkgs k = none ∧
        err = .errorf "package in checksums not found in timestamps: %v" [.str k]) := by
  constructor
  · intro k v w hv hw
    have h := mergeInfos_of_readers filelist checksums prefixes tsPkgs csPkgs hts hcs k v w
      (mapGet_some_mem _ _ _ hv) hw
    exact ⟨h.1, h.2.1, w, h.2.2⟩
  · intro entries err hperm herr
    have hmerge : ∀ kv ∈ entries, ∀ w, mapGet tsPkgs kv.1 = some w →
        ∃ r, mergeInfos kv.2 w = .ok r := fun kv hkv w hw =>
      ⟨w, (mergeInfos_of_readers filelist checksums prefixes tsPkgs csPkgs hts hcs kv.1 kv.2 w
        (hperm.subset hkv) hw).2.2⟩
    obtain ⟨kv, hkv, hnone, he⟩ :=
      reconcileLoop_error tsPkgs entries [] err hmerge ((reconcile_error_iff_loop _ _ _).mp herr)
    exact ⟨kv.1, mapGet_isSome_of_mem csPkgs kv (hperm.subset hkv), hnone, he⟩

/-- C20, witness: the entries of `foo` in the maps of two manifests merge. -/
theorem mergeInfos_conflict_unreachable_witness :
    ∃ r, mergeInfos
      ⟨"foo".toList, "1.0".toList, "x86_64".toList, "1".toList, Time.zero, [],
        "./a/foo-1.0-x86_64-1.tgz".toList⟩
      ⟨"foo".toList, "1.0".toList, "x86_64".toList, "1".toList, ⟨63713531040, 0⟩, [],
        "./a/foo-1.0-x86_64-1.tgz".toList⟩ = .ok r :=
  ((mergeInfos_conflict_unreachable
    ["-rw-r--r-- 1 root root 10 2020-01-02 03:04 ./a/foo-1.0-x86_64-1.tgz".toList]
    ["MD5 message digest                Filename".toList,
      "abc  ./a/foo-1.0-x86_64-1.tgz".toList]
    [] [("./a/foo-1.0-x86_64-1.tgz".toList,
        ⟨"foo".toList, "1.0".toList, "x86_64".toList, "1".toList, ⟨63713531040, 0⟩, [],
          "./a/foo-1.0-x86_64-1.tgz".toList⟩)]
      [("./a/foo-1.0-x86_64-1.tgz".toList,
        ⟨"foo".toList, "1.0".toList, "x86_64".toList, "1".toList, Time.zero, [],
          "./a/foo-1.0-x86_64-1.tgz".toList⟩)]
    (by decide) (by decide)).1 "./a/foo-1.0-x86_64-1.tgz".toList _ _
      (by decide) (by decide)).2.2

/-! ## The order of strings and of times -/

theorem strLess_irrefl (a : Str) : strLess a a = false := by
  induction a with
  | nil => rfl
  | cons c cs ih => simp [strLess, ih]

theorem strLess_trans (a b c : Str) (hab : strLess a b = true) (hbc : strLess b c = true) :
    strLess a c = true := by
  induction a generalizing b c with
  | nil =>
    cases b with
    | nil => simp [strLess] at hab
    | cons y ys =>
      cases c with
      | nil => simp [strLess] at hbc
      | cons z zs => rfl
  | cons x xs ih =>
    cases b with
    | nil => simp [strLess] at hab
    | cons y ys =>
      cases c with
      | nil => simp [strLess] at hbc
      | cons z zs =>
        unfold strLess at hab hbc ⊢
        by_cases hxy : x < y
        · by_cases hyz : y < z
          · simp [lt_trans hxy hyz]
          · simp only [hyz, if_false] at hbc
            by_cases hzy : z < y
            · simp [hzy] at hbc
            · have : y = z := le_antisymm (not_lt.mp hzy) (not_lt.mp hyz)
              subst this
              simp [hxy]
        · simp only [hxy, if_false] at hab
          by_cases hyx : y < x
          · simp [hyx] at hab
          · simp only [hyx, if_false] at hab
            have : x = y := le_antisymm (not_lt.mp hyx) (not_lt.mp hxy)
            subst this
            by_cases hxz : x < z
            · simp [hxz]
            · simp only [hxz, if_false] at hbc ⊢
              by_cases hzx : z < x
              · simp [hzx] at hbc
              · simp only [hzx, if_false] at hbc ⊢
                exact ih ys zs hab hbc

theorem strLess_total (a b : Str) (h : a ≠ b) : strLess a b = true ∨ strLess b a = true := by
  induction a generalizing b with
  | nil =>
    cases b with
    | nil => exact absurd rfl h
    | cons y ys => exact Or.inl rfl
  | cons x xs ih =>
    cases b with
    | nil => exact Or.inr rfl
    | cons y ys =>
      unfold strLess
      by_cases hxy : x < y
      · simp [hxy]
      · by_cases hyx : y < x
        · simp [hyx]
        · have hxy2 : x = y := le_antisymm (not_lt.mp hyx) (not_lt.mp hxy)
          subst hxy2
          simp only [lt_self_iff_false, if_false]
          exact ih ys (fun e => h (by rw [e]))

theorem Time.Before_irrefl (t : Time) : t.Before t = false := by
  simp [Time.Before]

theorem Time.Before_of_Before (a b c : Time) (hab : a.Before b = true)
    (hac : a.Before c = false) : b.Before c = false := by
  cases a; cases b; cases c
  simp only [Time.Before, Bool.or_eq_true, decide_eq_true_eq, Bool.and_eq_true,
    Bool.or_eq_false_iff, decide_eq_false_iff_not, Bool.and_eq_false_iff] at hab hac ⊢
  omega

/-! ## Sorting by name -/

theorem mem_insertByName (v x : info) (l : List info) :
    x ∈ insertByName v l ↔ x = v ∨ x ∈ l := by
  induction l with
  | nil => simp [insertByName]
  | cons w rest ih =>
    unfold insertByName
    split_ifs
    · simp only [List.mem_cons, ih]
      tauto
    · simp

theorem mem_sortByName (x : info) (l : List info) : x ∈ sortByName l ↔ x ∈ l := by
  induction l with
  | nil => simp [sortByName]
  | cons v rest ih => simp [sortByName, mem_insertByName, ih]

theorem insertByName_sorted (v : info) (l : List info)
    (hl : l.Pairwise (fun a b => strLess a.Name b.Name = true))
    (hv : ∀ x ∈ l, x.Name ≠ v.Name) :
    (insertByName v l).Pairwise (fun a b => strLess a.Name b.Name = true) := by
  induction l with
  | nil => simp [insertByName]
  | cons w rest ih =>
    rw [List.pairwise_cons] at hl
    unfold insertByName
    split_ifs with h
    · refine List.pairwise_cons.mpr ⟨fun x hx => ?_,
        ih hl.2 (fun x hx => hv x (List.mem_cons_of_mem _ hx))⟩
      rcases (mem_insertByName v x rest).mp hx with h2 | h2
      · rw [h2]; exact h
      · exact hl.1 x h2
    · have hvw : strLess v.Name w.Name = true := by
        rcases strLess_total w.Name v.Name (hv w (List.mem_cons_self _ _)) with h2 | h2
        · exact absurd h2 h
        · exact h2
      refine List.pairwise_cons.mpr ⟨fun x hx => ?_, List.pairwise_cons.mpr hl⟩
      rcases List.mem_cons.mp hx with h2 | h2
      · rw [h2]; exact hvw
      · exact strLess_trans _ _ _ hvw (hl.1 x h2)

/-- Sorting records with distinct names gives a strictly ascending list. -/
theorem sortByName_sorted (l : List info) (hnd : (l.map (fun r => r.Name)).Nodup) :
    (sortByName l).Pairwise (fun a b => strLess a.Name b.Name = true) := by
  induction l with
  | nil => simp [sortByName]
  | cons v rest ih =>
    simp only [List.map_cons, List.nodup_cons] at hnd
    unfold sortByName
    refine insertByName_sorted v _ (ih hnd.2) (fun x hx e => hnd.1 ?_)
    rw [← e]
    exact List.mem_map.mpr ⟨x, (mem_sortByName x rest).mp hx, rfl⟩

/-! ## The invariant of the merging loop -/

theorem mergeInfos_Name (a b m : info) (h : mergeInfos a b = .ok m) (ha : a.Name ≠ []) :
    m.Name = a.Name := by
  rw [((mergeInfos_ok_iff a b m).mp h).2]
  simp [coalesceInfos, ha]

theorem mergeInfos_Path (a b m : info) (h : mergeInfos a b = .ok m) (ha : a.Path ≠ []) :
    m.Path = a.Path := by
  rw [((mergeInfos_ok_iff a b m).mp h).2]
  simp [coalesceInfos, ha]

theorem isMerged_mono (tsPkgs : Map) (l1 l2 : List (Str × info)) (m : info)
    (hsub : ∀ kv ∈ l1, kv ∈ l2) (h : isMerged tsPkgs l1 m) : isMerged tsPkgs l2 m := by
  obtain ⟨kv, hkv, w, hw, hm⟩ := h
  exact ⟨kv, hsub kv hkv, w, hw, hm⟩

/-- The state of the loop: every record kept is a merged record filed under its name, and
for every merged record seen so far the record kept under its name is not older. -/
theorem reconcileEntry_invariant (tsPkgs newestPkgs newest2 : Map)
    (seen : List (Str × info)) (kv : Str × info)
    (hname : kv.2.Name ≠ [])
    (hA : ∀ e ∈ newestPkgs, e.2.Name = e.1 ∧ isMerged tsPkgs seen e.2)
    (hB : (newestPkgs.map Prod.fst).Nodup)
    (hC : ∀ m, isMerged tsPkgs seen m →
      ∃ r, (m.Name, r) ∈ newestPkgs ∧ r.ModTime.Before m.ModTime = false)
    (h : reconcileEntry tsPkgs newestPkgs kv = .ok newest2) :
    (∀ e ∈ newest2, e.2.Name = e.1 ∧ isMerged tsPkgs (seen ++ [kv]) e.2) ∧
    (newest2.map Prod.fst).Nodup ∧
    (∀ m, isMerged tsPkgs (seen ++ [kv]) m →
      ∃ r, (m.Name, r) ∈ newest2 ∧ r.ModTime.Before m.ModTime = false) := by
  unfold reconcileEntry at h
  cases hg : mapGet tsPkgs kv.1 with
  | none => rw [hg] at h; cases h
  | some w =>
    rw [hg] at h
    simp only at h
    cases hm : mergeInfos kv.2 w with
    | error err => rw [hm] at h; cases h
    | ok mg =>
      rw [hm] at h
      simp only at h
      have hmgName : mg.Name = kv.2.Name := mergeInfos_Name _ _ _ hm hname
      have hmgMerged : isMerged tsPkgs (seen ++ [kv]) mg :=
        ⟨kv, by simp, w, hg, hm⟩
      have hmono : ∀ m, isMerged tsPkgs seen m → isMerged tsPkgs (seen ++ [kv]) m :=
        fun m hmm => isMerged_mono tsPkgs seen _ m (fun x hx => by simp [hx]) hmm
      have hsplit : ∀ m, isMerged tsPkgs (seen ++ [kv]) m → isMerged tsPkgs seen m ∨ m = mg := by
        rintro m ⟨kv2, hkv2, w2, hw2, hm2⟩
        rcases List.mem_append.mp hkv2 with h1 | h1
        · exact Or.inl ⟨kv2, h1, w2, hw2, hm2⟩
        · rw [List.mem_singleton.mp h1, hg] at hw2
          cases hw2
          rw [List.mem_singleton.mp h1, hm] at hm2
          exact Or.inr (Except.ok.inj hm2).symm
      -- the two updates of the loop
      have hset : (∀ cur, mapGet newestPkgs kv.2.Name = some cur →
            cur.ModTime.Before mg.ModTime = true) →
          (∀ e ∈ mapSet newestPkgs kv.2.Name mg,
            e.2.Name = e.1 ∧ isMerged tsPkgs (seen ++ [kv]) e.2) ∧
          ((mapSet newestPkgs kv.2.Name mg).map Prod.fst).Nodup ∧
          (∀ m, isMerged tsPkgs (seen ++ [kv]) m →
            ∃ r, (m.Name, r) ∈ mapSet newestPkgs kv.2.Name mg ∧
              r.ModTime.Before m.ModTime = false) := by
        intro hcur
        refine ⟨fun e he => ?_, mapSet_nodup _ _ _ hB, fun m hmm => ?_⟩
        · rcases mem_mapSet _ _ _ _ he with h1 | h1
          · exact ⟨(hA e h1).1, hmono _ (hA e h1).2⟩
          · rw [h1]; exact ⟨hmgName, hmgMerged⟩
        · rcases hsplit m hmm with h1 | h1
          · obtain ⟨r, hr, hrb⟩ := hC m h1
            by_cases hn : m.Name = kv.2.Name
            · refine ⟨mg, hn ▸ mem_mapSet_self _ _ _, ?_⟩
              have hrcur := mapGet_of_mem newestPkgs m.Name r hB hr
              rw [hn] at hrcur
              exact Time.Before_of_Before _ _ _ (hcur r hrcur) hrb
            · exact ⟨r, mem_mapSet_of_ne _ _ _ _ hr hn, hrb⟩
          · subst h1
            exact ⟨m, hmgName ▸ mem_mapSet_self _ _ _, Time.Before_irrefl _⟩
      cases hn : mapGet newestPkgs kv.2.Name with
      | none =>
        rw [hn] at h
        simp only at h
        cases h
        exact hset (fun cur hc => by rw [hn] at hc; cases hc)
      | some cur =>
        rw [hn] at h
        simp only at h
        split_ifs at h with hb
        · cases h
          exact hset (fun c hc => by rw [hn] at hc; cases hc; exact hb)
        · cases h
          refine ⟨fun e he => ⟨(hA e he).1, hmono _ (hA e he).2⟩, hB, fun m hmm => ?_⟩
          rcases hsplit m hmm with h1 | h1
          · exact hC m h1
          · subst h1
            refine ⟨cur, hmgName ▸ mapGet_some_mem _ _ _ hn, ?_⟩
            cases hbb : cur.ModTime.Before m.ModTime with
            | false => rfl
            | true => exact absurd hbb hb

theorem reconcileLoop_invariant (tsPkgs : Map) (todo : List (Str × info))
    (newestPkgs final : Map) (seen : List (Str × info))
    (hname : ∀ kv ∈ todo, kv.2.Name ≠ [])
    (hA : ∀ e ∈ newestPkgs, e.2.Name = e.1 ∧ isMerged tsPkgs seen e.2)
    (hB : (newestPkgs.map Prod.fst).Nodup)
    (hC : ∀ m, isMerged tsPkgs seen m →
      ∃ r, (m.Name, r) ∈ newestPkgs ∧ r.ModTime.Before m.ModTime = false)
    (h : reconcileLoop tsPkgs todo newestPkgs = .ok final) :
    (∀ e ∈ final, e.2.Name = e.1 ∧ isMerged tsPkgs (seen ++ todo) e.2) ∧
    (final.map Prod.fst).Nodup ∧
    (∀ m, isMerged tsPkgs (seen ++ todo) m →
      ∃ r, (m.Name, r) ∈ final ∧ r.ModTime.Before m.ModTime = false) := by
  induction todo generalizing newestPkgs seen with
  | nil =>
    simp only [reconcileLoop] at h
    cases h
    rw [List.append_nil]
    exact ⟨hA, hB, hC⟩
  | cons kv rest ih =>
    unfold reconcileLoop at h
    cases hstep : reconcileEntry tsPkgs newestPkgs kv with
    | error err => rw [hstep] at h; cases h
    | ok newest2 =>
      rw [hstep] at h
      simp only at h
      obtain ⟨hA2, hB2, hC2⟩ := reconcileEntry_invariant tsPkgs newestPkgs newest2 seen kv
        (hname kv (List.mem_cons_self _ _)) hA hB hC hstep
      have := ih newest2 (seen ++ [kv]) (fun x hx => hname x (List.mem_cons_of_mem _ hx))
        hA2 hB2 hC2 h
      rw [List.append_cons]
      exact this

/-- The records that the reconciliation returns, when the entries of the checksum map have
a name: each is a merged record, their names are distinct, and each merged record has a
record of its name that is not older. -/
theorem reconcile_spec (tsPkgs : Map) (entries : List (Str × info)) (out : List info)
    (hname : ∀ kv ∈ entries, kv.2.Name ≠ [])
    (h : reconcile tsPkgs entries = .ok out) :
    (∀ r ∈ out, isMerged tsPkgs entries r) ∧
    out.Pairwise (fun a b => strLess a.Name b.Name = true) ∧
    (∀ m, isMerged tsPkgs entries m →
      ∃ r ∈ out, r.Name = m.Name ∧ r.ModTime.Before m.ModTime = false) := by
  unfold reconcile at h
  cases hl : reconcileLoop tsPkgs entries [] with
  | error err => rw [hl] at h; cases h
  | ok final =>
    rw [hl] at h
    simp only at h
    cases h
    obtain ⟨hA, hB, hC⟩ := reconcileLoop_invariant tsPkgs entries [] final [] hname
      (fun _ he => absurd he (List.not_mem_nil _)) List.nodup_nil
      (fun m hm => by
        obtain ⟨kv, hkv, _⟩ := hm
        exact absurd hkv (List.not_mem_nil _)) hl
    simp only [List.nil_append] at hA hC
    have hnames : final.map (fun e => e.2.Name) = final.map Prod.fst :=
      List.map_congr_left (fun e he => (hA e he).1)
    refine ⟨fun r hr => ?_, ?_, fun m hm => ?_⟩
    · obtain ⟨e, he, rfl⟩ := List.mem_map.mp ((mem_sortByName r _).mp hr)
      exact (hA e he).2
    · apply sortByName_sorted
      rw [List.map_map]
      exact hnames ▸ hB
    · obtain ⟨r, hr, hrb⟩ := hC m hm
      exact ⟨r, (mem_sortByName r _).mpr (List.mem_map.mpr ⟨_, hr, rfl⟩), (hA _ hr).1, hrb⟩

/-! ## Properties of the reconciliation -/

theorem parsePackagePath_ok_Name (p : Str) (i : info) (h : parsePackagePath p = .ok i) :
    i.Name ≠ [] := by
  by_cases hlen : (segments p).length < 3
  · rw [parsePackagePath_of_short p hlen] at h
    cases h
  · obtain ⟨pre, v, a, b, hx⟩ := exists_last_three (segments p) (by omega)
    rw [parsePackagePath_of_segments _ _ _ _ _ hx] at h
    split_ifs at h with hempty
    have h2 := Except.ok.inj h
    rw [← h2]
    exact fun e => hempty (Or.inl e)

theorem parsePackagePath_ok_ne_nil (p : Str) (i : info) (h : parsePackagePath p = .ok i) :
    p ≠ [] := by
  intro e
  subst e
  have herr : parsePackagePath [] =
      .error (.errorf "invalid package name with less than 3 dashes: %v" [.str []]) := by
    decide
  rw [herr] at h
  cases h

theorem checksums_entries_named (checksums prefixes : List Str) (csPkgs : Map)
    (entries : List (Str × info))
    (hcs : packageChecksums checksums prefixes = .ok csPkgs) (hperm : entries.Perm csPkgs) :
    ∀ kv ∈ entries, kv.2.Name ≠ [] := fun kv hkv =>
  parsePackagePath_ok_Name kv.1 kv.2
    ((packageChecksums_entries checksums prefixes csPkgs hcs).1 kv (hperm.subset hkv))

theorem isMerged_perm (tsPkgs : Map) (l1 l2 : List (Str × info)) (m : info)
    (hperm : l1.Perm l2) : isMerged tsPkgs l1 m ↔ isMerged tsPkgs l2 m :=
  ⟨isMerged_mono tsPkgs l1 l2 m (fun _ h => hperm.subset h),
    isMerged_mono tsPkgs l2 l1 m (fun _ h => hperm.symm.subset h)⟩

theorem strict_names_unique (l : List info)
    (h : l.Pairwise (fun a b => strLess a.Name b.Name = true)) :
    ∀ a ∈ l, ∀ b ∈ l, a.Name = b.Name → a = b := by
  induction l with
  | nil => intro a ha; exact absurd ha (List.not_mem_nil _)
  | cons x xs ih =>
    rw [List.pairwise_cons] at h
    intro a ha b hb hab
    rcases List.mem_cons.mp ha with h1 | h1 <;> rcases List.mem_cons.mp hb with h2 | h2
    · rw [h1, h2]
    · have := h.1 b h2
      rw [← h1, hab, strLess_irrefl] at this
      cases this
    · have := h.1 a h1
      rw [← h2, ← hab, strLess_irrefl] at this
      cases this
    · exact ih h.2 a h1 b h2 hab

theorem strict_names_nodup (l : List info)
    (h : l.Pairwise (fun a b => strLess a.Name b.Name = true)) :
    (l.map (fun r => r.Name)).Nodup := by
  rw [List.Nodup, List.pairwise_map]
  refine h.imp (fun {a b} hab e => ?_)
  rw [e, strLess_irrefl] at hab
  cases hab

/-- C15: when the reconciliation succeeds on a checksum map read by `packageChecksums`,
visited in any order, its output is strictly ascending by `Name`: no two records have the
same name, every record is a merged record, and for every name of a merged record there is
exactly one record. -/
theorem reconcile_sorted_by_name (checksums prefixes : List Str) (csPkgs tsPkgs : Map)
    (entries : List (Str × info)) (out : List info)
    (hcs : packageChecksums checksums prefixes = .ok csPkgs)
    (hperm : entries.Perm csPkgs)
    (h : reconcile tsPkgs entries = .ok out) :
    out.Pairwise (fun a b => strLess a.Name b.Name = true) ∧
    (out.map (fun r => r.Name)).Nodup ∧
    (∀ r ∈ out, isMerged tsPkgs csPkgs r) ∧
    (∀ m, isMerged tsPkgs csPkgs m →
      ∃ r ∈ out, r.Name = m.Name ∧ ∀ r2 ∈ out, r2.Name = m.Name → r2 = r) := by
  obtain ⟨h1, h2, h3⟩ := reconcile_spec tsPkgs entries out
    (checksums_entries_named checksums prefixes csPkgs entries hcs hperm) h
  refine ⟨h2, strict_names_nodup out h2,
    fun r hr => (isMerged_perm tsPkgs entries csPkgs r hperm).mp (h1 r hr), fun m hm => ?_⟩
  obtain ⟨r, hr, hrn, _⟩ := h3 m ((isMerged_perm tsPkgs entries csPkgs m hperm).mpr hm)
  exact ⟨r, hr, hrn, fun r2 hr2 hn => strict_names_unique out h2 r2 hr2 r hr (hn.trans hrn.symm)⟩

/-- C16: when the reconciliation succeeds on a checksum map read by `packageChecksums`,
visited in any order, every record of the output is a merged record, no merged record of
the same name has a later time than it, and a merged record that is older than another of
its name is not in the output. -/
theorem reconcile_newest_wins (checksums prefixes : List Str) (csPkgs tsPkgs : Map)
    (entries : List (Str × info)) (out : List info)
    (hcs : packageChecksums checksums prefixes = .ok csPkgs)
    (hperm : entries.Perm csPkgs)
    (h : reconcile tsPkgs entries = .ok out) :
    (∀ r ∈ out, isMerged tsPkgs csPkgs r) ∧
    (∀ r ∈ out, ∀ m, isMerged tsPkgs csPkgs m → m.Name = r.Name →
      r.ModTime.Before m.ModTime = false) ∧
    (∀ m1 m2, isMerged tsPkgs csPkgs m1 → isMerged tsPkgs csPkgs m2 → m1.Name = m2.Name →
      m1.ModTime.Before m2.ModTime = true → m1 ∉ out ∧ ∃ r ∈ out, r.Name = m2.Name) := by
  obtain ⟨h1, h2, h3⟩ := reconcile_spec tsPkgs entries out
    (checksums_entries_named checksums prefixes csPkgs entries hcs hperm) h
  have hlater : ∀ r ∈ out, ∀ m, isMerged tsPkgs csPkgs m → m.Name = r.Name →
      r.ModTime.Before m.ModTime = false := by
    intro r hr m hm hn
    obtain ⟨r2, hr2, hr2n, hr2b⟩ :=
      h3 m ((isMerged_perm tsPkgs entries csPkgs m hperm).mpr hm)
    have : r2 = r := strict_names_unique out h2 r2 hr2 r hr (hr2n.trans hn)
    rw [← this]
    exact hr2b
  refine ⟨fun r hr => (isMerged_perm tsPkgs entries csPkgs r hperm).mp (h1 r hr), hlater,
    fun m1 m2 _ hm2 hn hb => ⟨fun hin => ?_, ?_⟩⟩
  · have := hlater m1 hin m2 hm2 hn.symm
    rw [hb] at this
    cases this
  · obtain ⟨r, hr, hrn, _⟩ := h3 m2 ((isMerged_perm tsPkgs entries csPkgs m2 hperm).mpr hm2)
    exact ⟨r, hr, hrn⟩

theorem example_timestamps : packageTimestamps exampleFilelist [] = .ok exampleTimestampMap := by
  decide

theorem example_checksums : packageChecksums exampleChecksums [] = .ok exampleChecksumMap := by
  decide

theorem example_reconcile :
    reconcile exampleTimestampMap exampleChecksumMap = .ok exampleRepository := by
  decide

/-- C15, witness: the example repository is returned with `bar` before `foo`, one record
each. -/
theorem reconcile_sorted_by_name_witness :
    exampleRepository.Pairwise (fun a b => strLess a.Name b.Name = true) ∧
    (exampleRepository.map (fun r => r.Name)).Nodup :=
  ⟨(reconcile_sorted_by_name exampleChecksums [] exampleChecksumMap exampleTimestampMap
      exampleChecksumMap exampleRepository example_checksums (List.Perm.refl _)
      example_reconcile).1,
    (reconcile_sorted_by_name exampleChecksums [] exampleChecksumMap exampleTimestampMap
      exampleChecksumMap exampleRepository example_checksums (List.Perm.refl _)
      example_reconcile).2.1⟩

/-- C16, witness: in the example the older `foo-1.0` is not returned, and a record of its
name is. -/
theorem reconcile_newest_wins_witness :
    examplePkg "foo" "1.0" "./a/foo-1.0-x86_64-1.tgz" ⟨63713531040, 0⟩ ∉ exampleRepository ∧
    ∃ r ∈ exampleRepository, r.Name = "foo".toList :=
  (reconcile_newest_wins exampleChecksums [] exampleChecksumMap exampleTimestampMap
    exampleChecksumMap exampleRepository example_checksums (List.Perm.refl _)
    example_reconcile).2.2
    (examplePkg "foo" "1.0" "./a/foo-1.0-x86_64-1.tgz" ⟨63713531040, 0⟩)
    (examplePkg "foo" "1.1" "./p/foo-1.1-x86_64-1.tgz" ⟨63755881680, 0⟩)
    ⟨("./a/foo-1.0-x86_64-1.tgz".toList,
        examplePkg "foo" "1.0" "./a/foo-1.0-x86_64-1.tgz" Time.zero), by decide,
      examplePkg "foo" "1.0" "./a/foo-1.0-x86_64-1.tgz" ⟨63713531040, 0⟩, by decide, by decide⟩
    ⟨("./p/foo-1.1-x86_64-1.tgz".toList,
        examplePkg "foo" "1.1" "./p/foo-1.1-x86_64-1.tgz" Time.zero), by decide,
      examplePkg "foo" "1.1" "./p/foo-1.1-x86_64-1.tgz" ⟨63755881680, 0⟩, by decide, by decide⟩
    (by decide) (by decide)

/-! ## Timestamp entries without a checksum entry -/

theorem mapGet_mapSetAll (m : Map) (extra : List (Str × info)) (k : Str)
    (h : ∀ e ∈ extra, e.1 ≠ k) : mapGet (mapSetAll m extra) k = mapGet m k := by
  induction extra generalizing m with
  | nil => rfl
  | cons e rest ih =>
    unfold mapSetAll
    rw [ih _ (fun x hx => h x (List.mem_cons_of_mem _ hx)),
      mapGet_mapSet_ne _ _ _ _ (h e (List.mem_cons_self _ _))]

theorem reconcileEntry_congr (ts1 ts2 newestPkgs : Map) (kv : Str × info)
    (h : mapGet ts2 kv.1 = mapGet ts1 kv.1) :
    reconcileEntry ts2 newestPkgs kv = reconcileEntry ts1 newestPkgs kv := by
  unfold reconcileEntry
  rw [h]

theorem reconcileLoop_congr (ts1 ts2 : Map) (entries : List (Str × info)) (newestPkgs : Map)
    (h : ∀ kv ∈ entries, mapGet ts2 kv.1 = mapGet ts1 kv.1) :
    reconcileLoop ts2 entries newestPkgs = reconcileLoop ts1 entries newestPkgs := by
  induction entries generalizing newestPkgs with
  | nil => rfl
  | cons kv rest ih =>
    unfold reconcileLoop
    rw [reconcileEntry_congr ts1 ts2 newestPkgs kv (h kv (List.mem_cons_self _ _))]
    cases reconcileEntry ts1 newestPkgs kv with
    | error err => rfl
    | ok newest2 => exact ih newest2 (fun x hx => h x (List.mem_cons_of_mem _ hx))

/-- C19: entries added to the timestamp map under keys that are not keys of the checksum
map change neither the success nor the output of the reconciliation, for all maps and every
order of visit; and when the checksum map was read by `packageChecksums`, the `Path` of
every record of the output is a key of the checksum map. -/
theorem reconcile_ignores_extra_timestamps :
    (∀ (tsPkgs : Map) (extra entries : List (Str × info)),
      (∀ e ∈ extra, ∀ kv ∈ entries, e.1 ≠ kv.1) →
        reconcile (mapSetAll tsPkgs extra) entries = reconcile tsPkgs entries) ∧
    (∀ (checksums prefixes : List Str) (csPkgs tsPkgs : Map) (entries : List (Str × info))
      (out : List info),
      packageChecksums checksums prefixes = .ok csPkgs →
      entries.Perm csPkgs →
      reconcile tsPkgs entries = .ok out →
        ∀ r ∈ out, (mapGet csPkgs r.Path).isSome) := by
  constructor
  · intro tsPkgs extra entries h
    unfold reconcile
    rw [reconcileLoop_congr tsPkgs (mapSetAll tsPkgs extra) entries []
      (fun kv hkv => mapGet_mapSetAll tsPkgs extra kv.1 (fun e he => h e he kv hkv))]
  · intro checksums prefixes csPkgs tsPkgs entries out hcs hperm h r hr
    obtain ⟨kv, hkv, w, _, hm⟩ := (reconcile_spec tsPkgs entries out
      (checksums_entries_named checksums prefixes csPkgs entries hcs hperm) h).1 r hr
    have hparse := (packageChecksums_entries checksums prefixes csPkgs hcs).1 kv
      (hperm.subset hkv)
    have hpath : kv.2.Path = kv.1 := (parsePackagePath_ok kv.1 kv.2 hparse).2.2
    have hne : kv.2.Path ≠ [] := by
      rw [hpath]
      exact parsePackagePath_ok_ne_nil kv.1 kv.2 hparse
    rw [mergeInfos_Path kv.2 w r hm hne, hpath]
    exact mapGet_isSome_of_mem csPkgs kv (hperm.subset hkv)

/-- C19, witness: a timestamp entry for `baz`, which has no checksum entry, does not change
the example repository. -/
theorem reconcile_ignores_extra_timestamps_witness :
    reconcile (mapSetAll exampleTimestampMap
      [("./a/baz-3.0-x86_64-1.tgz".toList,
        examplePkg "baz" "3.0" "./a/baz-3.0-x86_64-1.tgz" ⟨63755881680, 0⟩)])
      exampleChecksumMap = reconcile exampleTimestampMap exampleChecksumMap :=
  reconcile_ignores_extra_timestamps.1 exampleTimestampMap
    [("./a/baz-3.0-x86_64-1.tgz".toList,
      examplePkg "baz" "3.0" "./a/baz-3.0-x86_64-1.tgz" ⟨63755881680, 0⟩)]
    exampleChecksumMap (by decide)

/-! ## upgrade -/

theorem mem_insertByLocalName (v x : upgradeInfo) (l : List upgradeInfo) :
    x ∈ insertByLocalName v l ↔ x = v ∨ x ∈ l := by
  induction l with
  | nil => simp [insertByLocalName]
  | cons w rest ih =>
    unfold insertByLocalName
    split_ifs
    · simp only [List.mem_cons, ih]
      tauto
    · simp

theorem mem_sortByLocalName (x : upgradeInfo) (l : List upgradeInfo) :
    x ∈ sortByLocalName l ↔ x ∈ l := by
  induction l with
  | nil => simp [sortByLocalName]
  | cons v rest ih => simp [sortByLocalName, mem_insertByLocalName, ih]

theorem mem_matchLoop (repoPkgs localPkgs : List info) (u : upgradeInfo) :
    u ∈ matchLoop repoPkgs localPkgs ↔
      ∃ l ∈ localPkgs, findMatch l repoPkgs = u ∧ u ≠ upgradeInfo.empty := by
  induction localPkgs with
  | nil => simp [matchLoop]
  | cons l rest ih =>
    unfold matchLoop
    split_ifs with h
    · rw [ih]
      constructor
      · rintro ⟨l2, hl2, hf, hne⟩
        exact ⟨l2, List.mem_cons_of_mem _ hl2, hf, hne⟩
      · rintro ⟨l2, hl2, hf, hne⟩
        rcases List.mem_cons.mp hl2 with h2 | h2
        · subst h2
          exact absurd (hf.symm.trans h) hne
        · exact ⟨l2, h2, hf, hne⟩
    · rw [List.mem_cons, ih]
      constructor
      · rintro (h2 | ⟨l2, hl2, hf, hne⟩)
        · exact ⟨l, List.mem_cons_self _ _, h2.symm, h2 ▸ h⟩
        · exact ⟨l2, List.mem_cons_of_mem _ hl2, hf, hne⟩
      · rintro ⟨l2, hl2, hf, hne⟩
        rcases List.mem_cons.mp hl2 with h2 | h2
        · subst h2
          exact Or.inl hf.symm
        · exact Or.inr ⟨l2, h2, hf, hne⟩

/-- A match that is not the zero value pairs the local package with a repository package of
its name whose version or build differs. -/
theorem findMatch_result (localPkg : info) (repoPkgs : List info) (u : upgradeInfo)
    (h : findMatch localPkg repoPkgs = u) (hne : u ≠ upgradeInfo.empty) :
    u.Local = localPkg ∧ u.Repo ∈ repoPkgs ∧ u.Repo.Name = localPkg.Name ∧
      (u.Repo.Version ≠ localPkg.Version ∨ u.Repo.Build ≠ localPkg.Build) := by
  induction repoPkgs with
  | nil => exact absurd h.symm hne
  | cons x rest ih =>
    unfold findMatch at h
    split_ifs at h with h1 h2
    · subst h
      exact ⟨rfl, List.mem_cons_self _ _, h1, h2⟩
    · exact absurd h.symm hne
    · obtain ⟨a, b, c, d⟩ := ih h
      exact ⟨a, List.mem_cons_of_mem _ b, c, d⟩

/-- With one repository package per name, the inner loop finds the package of the name. -/
theorem findMatch_of_mem (localPkg r : info) (repoPkgs : List info)
    (hnd : (repoPkgs.map (fun x => x.Name)).Nodup) (hr : r ∈ repoPkgs)
    (hname : r.Name = localPkg.Name) :
    findMatch localPkg repoPkgs =
      if r.Version ≠ localPkg.Version ∨ r.Build ≠ localPkg.Build then
        { Local := localPkg, Repo := r }
      else upgradeInfo.empty := by
  induction repoPkgs with
  | nil => exact absurd hr (List.not_mem_nil _)
  | cons x rest ih =>
    simp only [List.map_cons, List.nodup_cons] at hnd
    unfold findMatch
    rcases List.mem_cons.mp hr with h | h
    · subst h
      rw [if_pos hname]
    · have hx : ¬ x.Name = localPkg.Name := by
        intro e
        exact hnd.1 (List.mem_map.mpr ⟨r, h, hname.trans e.symm⟩)
      rw [if_neg hx]
      exact ih hnd.2 h

theorem upgradeInfo_ne_empty (l r : info) (h : r.Version ≠ l.Version ∨ r.Build ≠ l.Build) :
    ({ Local := l, Repo := r } : upgradeInfo) ≠ upgradeInfo.empty := by
  intro e
  have h1 : l = info.empty := congrArg upgradeInfo.Local e
  have h2 : r = info.empty := congrArg upgradeInfo.Repo e
  subst h1 h2
  rcases h with h | h <;> exact h rfl

/-- C17: for a repository sequence with at most one record per name, `upgrade` emits the
pair of `l` and `r` exactly when `l` is a local record, `r` is the repository record of the
same name, and the version or the build differs; a local record without a repository
record of its name, or with the same version and build, gives no pair. -/
theorem upgrade_pairs (repoPkgs localPkgs : List info)
    (hnd : (repoPkgs.map (fun x => x.Name)).Nodup) (l r : info) :
    ({ Local := l, Repo := r } : upgradeInfo) ∈ upgrade repoPkgs localPkgs ↔
      l ∈ localPkgs ∧ r ∈ repoPkgs ∧ r.Name = l.Name ∧
        (l.Version ≠ r.Version ∨ l.Build ≠ r.Build) := by
  unfold upgrade
  rw [mem_sortByLocalName, mem_matchLoop]
  constructor
  · rintro ⟨l2, hl2, hf, hne⟩
    obtain ⟨h1, h2, h3, h4⟩ := findMatch_result l2 repoPkgs _ hf hne
    simp only at h1 h2 h3 h4
    subst h1
    exact ⟨hl2, h2, h3, h4.imp (fun h e => h e.symm) (fun h e => h e.symm)⟩
  · rintro ⟨hl, hr, hname, hdiff⟩
    have hdiff2 : r.Version ≠ l.Version ∨ r.Build ≠ l.Build :=
      hdiff.imp (fun h e => h e.symm) (fun h e => h e.symm)
    refine ⟨l, hl, ?_, upgradeInfo_ne_empty l r hdiff2⟩
    rw [findMatch_of_mem l r repoPkgs hnd hr hname, if_pos hdiff2]

/-- C17, witness: of the local packages `bar` 1, `foo` 1.1 and `baz`, only `bar`, which
the example repository has as 2.0, gives a pair. -/
theorem upgrade_pairs_witness :
    ({ Local := examplePkg "bar" "1" "bar-1-x86_64-1" ⟨5, 0⟩,
       Repo := examplePkg "bar" "2.0" "./a/bar-2.0-x86_64-1.tgz" ⟨63713531040, 0⟩ } :
        upgradeInfo) ∈
      upgrade exampleRepository
        [examplePkg "foo" "1.1" "foo-1.1-x86_64-1" ⟨5, 0⟩,
         examplePkg "baz" "3" "baz-3-x86_64-1" ⟨5, 0⟩,
         examplePkg "bar" "1" "bar-1-x86_64-1" ⟨5, 0⟩] ∧
    upgrade exampleRepository
        [examplePkg "foo" "1.1" "foo-1.1-x86_64-1" ⟨5, 0⟩,
         examplePkg "baz" "3" "baz-3-x86_64-1" ⟨5, 0⟩,
         examplePkg "bar" "1" "bar-1-x86_64-1" ⟨5, 0⟩] =
      [{ Local := examplePkg "bar" "1" "bar-1-x86_64-1" ⟨5, 0⟩,
         Repo := examplePkg "bar" "2.0" "./a/bar-2.0-x86_64-1.tgz" ⟨63713531040, 0⟩ }] :=
  ⟨(upgrade_pairs exampleRepository _ (by decide) _ _).mpr
      ⟨by decide, by decide, by decide, by decide⟩, by decide⟩

/-! ## readPackageLog and list -/

/-- C18, the code at the failing input: the entries `memtest86-5.01-x86_64-1` and
`memtest86+-5.01-x86_64-1` are sorted by file name, where `+` comes before `-`, so `list`
returns the package `memtest86+` before the package `memtest86`, although the name
`memtest86` is the smaller one. -/
theorem list_not_sorted_by_name :
    list [⟨"memtest86-5.01-x86_64-1".toList, ⟨63713531040, 0⟩⟩,
          ⟨"memtest86+-5.01-x86_64-1".toList, ⟨63713531040, 0⟩⟩] =
      .ok [examplePkg "memtest86+" "5.01" "memtest86+-5.01-x86_64-1" ⟨63713531040, 0⟩,
           examplePkg "memtest86" "5.01" "memtest86-5.01-x86_64-1" ⟨63713531040, 0⟩] ∧
    readPackageLog [⟨"memtest86-5.01-x86_64-1".toList, ⟨63713531040, 0⟩⟩,
          ⟨"memtest86+-5.01-x86_64-1".toList, ⟨63713531040, 0⟩⟩] =
      .ok [examplePkg "memtest86+" "5.01" "memtest86+-5.01-x86_64-1" ⟨63713531040, 0⟩,
           examplePkg "memtest86" "5.01" "memtest86-5.01-x86_64-1" ⟨63713531040, 0⟩] ∧
    strLess "memtest86".toList "memtest86+".toList = true := by
  decide

/-! ## Lemmas on the scanner -/

theorem byteLen_replicate (n : Nat) (c : Char) (hc : utf8.RuneLen c = 1) :
    byteLen (List.replicate n c) = n := by
  induction n with
  | zero => rfl
  | succ n ih =>
    rw [List.replicate_succ, byteLen, hc, ih]
    omega

theorem takeBytes_replicate (n m : Nat) (c : Char) (hc : utf8.RuneLen c = 1) (h : n ≤ m) :
    bufio.takeBytes n (List.replicate m c) = List.replicate n c := by
  induction n generalizing m with
  | zero =>
    cases m with
    | zero => rfl
    | succ m =>
      rw [List.replicate_succ, bufio.takeBytes, hc]
      rfl
  | succ n ih =>
    cases m with
    | zero => omega
    | succ m =>
      rw [List.replicate_succ, bufio.takeBytes, hc, if_pos (by omega), List.replicate_succ,
        show n + 1 - 1 = n by omega, ih m (by omega)]

theorem dropCR_of_not_mem : ∀ (s : Str), '\r' ∉ s → bufio.dropCR s = s
  | [], _ => rfl
  | [c], h => by
    have hc : ¬ c = '\r' := fun e => h (by simp [e])
    simp [bufio.dropCR, hc]
  | c :: d :: rest, h => by
    rw [bufio.dropCR, dropCR_of_not_mem (d :: rest) (fun hm => h (List.mem_cons_of_mem _ hm))]

theorem FieldsFrom_dropCR : ∀ (s cur : Str),
    strings.FieldsFrom (bufio.dropCR s) cur = strings.FieldsFrom s cur
  | [], _ => rfl
  | [c], cur => by
    by_cases hc : c = '\r'
    · subst hc
      have hsp : unicode.IsSpace '\r' = true := by decide
      simp only [bufio.dropCR, if_true, strings.FieldsFrom, hsp]
    · simp only [bufio.dropCR, hc, if_false]
  | c :: d :: rest, cur => by
    rw [bufio.dropCR, strings.FieldsFrom, strings.FieldsFrom,
      FieldsFrom_dropCR (d :: rest) [], FieldsFrom_dropCR (d :: rest) (cur ++ [c])]

/-- The fields of a line do not depend on a carriage return at its end. -/
theorem Fields_dropCR (s : Str) : strings.Fields (bufio.dropCR s) = strings.Fields s :=
  FieldsFrom_dropCR s []

theorem timestampsLine_dropCR (prefixes : List Str) (out : Map) (line : Str) :
    timestampsLine prefixes out (bufio.dropCR line) = timestampsLine prefixes out line := by
  unfold timestampsLine
  rw [Fields_dropCR]

theorem scanLines_short (line : Str) (rest : List Str)
    (h : byteLen line < bufio.MaxScanTokenSize) :
    bufio.scanLines (line :: rest) = bufio.dropCR line :: bufio.scanLines rest := by
  rw [bufio.scanLines, if_pos h]

theorem scanLines_long (line : Str) (rest : List Str)
    (h : bufio.MaxScanTokenSize ≤ byteLen line) : bufio.scanLines (line :: rest) = [] := by
  rw [bufio.scanLines, if_neg (by omega)]

theorem scanLines_append (l1 rest : List Str)
    (h : ∀ l ∈ l1, byteLen l < bufio.MaxScanTokenSize) :
    bufio.scanLines (l1 ++ rest) = l1.map bufio.dropCR ++ bufio.scanLines rest := by
  induction l1 with
  | nil => rfl
  | cons l ls ih =>
    rw [List.cons_append, scanLines_short _ _ (h l (List.mem_cons_self _ _)),
      ih (fun x hx => h x (List.mem_cons_of_mem _ hx))]
    rfl

theorem timestampsLoop_map_dropCR (prefixes : List Str) (lines rest : List Str) (out : Map) :
    timestampsLoop prefixes (lines.map bufio.dropCR ++ rest) out =
      timestampsLoop prefixes (lines ++ rest) out := by
  induction lines generalizing out with
  | nil => rfl
  | cons l ls ih =>
    simp only [List.map_cons, List.cons_append, timestampsLoop, timestampsLine_dropCR]
    cases timestampsLine prefixes out l with
    | error err => rfl
    | ok out2 => exact ih out2

/-- The lines of 70000 spaces and of 70000 letters are too long for the scanner. -/
theorem long_line_too_long (c : Char) (hc : utf8.RuneLen c = 1) :
    bufio.MaxScanTokenSize ≤ byteLen (List.replicate 70000 c) := by
  rw [byteLen_replicate _ _ hc]
  decide

/-! ## The readers and lines of 64 KiB or more -/

/-- C9, the code at the failing input: for the scenario of one package, with a timestamp
line and a checksum line for `./slackware64/a/foo-1.0-x86_64-1.tgz` under the default
prefixes, the repository is read without an error and has one record with the time, and
the `CheckSum` of the record is empty. -/
theorem readRepository_drops_checksum :
    readRepository
      ["-rw-r--r-- 1 root root 1234 2020-01-02 03:04 ./slackware64/a/foo-1.0-x86_64-1.tgz".toList]
      ["MD5 message digest                Filename".toList,
       "d41d8cd98f00b204e9800998ecf8427e  ./slackware64/a/foo-1.0-x86_64-1.tgz".toList]
      ["./patches/packages".toList, "./slackware64".toList] =
    .ok [{ Name := "foo".toList, Version := "1.0".toList, Arch := "x86_64".toList,
           Build := "1".toList, ModTime := ⟨63713531040, 0⟩, CheckSum := [],
           Path := "./slackware64/a/foo-1.0-x86_64-1.tgz".toList }] := by
  decide

theorem timestampsLoop_two_lines (prefixes l1 l2 l3 : List Str) (a b : Str) (out : Map)
    (ha8 : (strings.Fields a).length = 8) (hb8 : (strings.Fields b).length = 8)
    (hsame : (strings.Fields a).getD 7 [] = (strings.Fields b).getD 7 [])
    (hsuf : hasSuffixes ((strings.Fields a).getD 7 []) suffixes = true)
    (hpre : prefixes = [] ∨ hasPrefixes ((strings.Fields a).getD 7 []) prefixes = true) :
    ∃ err, timestampsLoop prefixes (l1 ++ a :: (l2 ++ b :: l3)) out = .error err := by
  induction l1 generalizing out with
  | nil =>
    rw [List.nil_append]
    unfold timestampsLoop
    cases hstep : timestampsLine prefixes out a with
    | error err => exact ⟨err, rfl⟩
    | ok out2 =>
      have hkey := timestampsLine_sets prefixes out out2 a ha8 hsuf hpre hstep
      rw [hsame] at hkey hsuf hpre
      exact timestampsLoop_duplicate prefixes (l2 ++ b :: l3) out2 b (by simp) hb8 hsuf hpre hkey
  | cons line rest ih =>
    rw [List.cons_append]
    unfold timestampsLoop
    cases hstep : timestampsLine prefixes out line with
    | error err => exact ⟨err, rfl⟩
    | ok out2 => exact ih out2

/-- When the lines up to the second of two accepted lines with the same path are shorter
than 64 KiB, `packageTimestamps` returns an error. -/
theorem packageTimestamps_duplicate_of_short_lines (prefixes l1 l2 l3 : List Str) (a b : Str)
    (h1 : ∀ l ∈ l1, byteLen l < bufio.MaxScanTokenSize)
    (ha : byteLen a < bufio.MaxScanTokenSize)
    (h2 : ∀ l ∈ l2, byteLen l < bufio.MaxScanTokenSize)
    (hb : byteLen b < bufio.MaxScanTokenSize)
    (ha8 : (strings.Fields a).length = 8) (hb8 : (strings.Fields b).length = 8)
    (hsame : (strings.Fields a).getD 7 [] = (strings.Fields b).getD 7 [])
    (hsuf : hasSuffixes ((strings.Fields a).getD 7 []) suffixes = true)
    (hpre : prefixes = [] ∨ hasPrefixes ((strings.Fields a).getD 7 []) prefixes = true) :
    ∃ err, packageTimestamps (l1 ++ a :: (l2 ++ b :: l3)) prefixes = .error err := by
  unfold packageTimestamps
  rw [scanLines_append l1 _ h1, scanLines_short a _ ha, scanLines_append l2 _ h2,
    scanLines_short b _ hb]
  apply timestampsLoop_two_lines
  · rw [Fields_dropCR]; exact ha8
  · rw [Fields_dropCR]; exact hb8
  · rw [Fields_dropCR, Fields_dropCR]; exact hsame
  · rw [Fields_dropCR]; exact hsuf
  · rw [Fields_dropCR]; exact hpre

/-- C10, the code at the failing input: two lines of eight fields for the path
`./a/foo-1.0-x86_64-1.tgz`, which passes the filters, with a line of 70000 spaces between
them.  The scanner gives up at the long line, the loop ends, and the map of the first line
is returned without an error. -/
theorem packageTimestamps_misses_duplicate :
    packageTimestamps
      ["-rw-r--r-- 1 root root 10 2020-01-02 03:04 ./a/foo-1.0-x86_64-1.tgz".toList,
       List.replicate 70000 ' ',
       "-rw-r--r-- 1 root root 99 2021-05-06 07:08 ./a/foo-1.0-x86_64-1.tgz".toList] [] =
      .ok [("./a/foo-1.0-x86_64-1.tgz".toList,
        { Name := "foo".toList, Version := "1.0".toList, Arch := "x86_64".toList,
          Build := "1".toList, ModTime := ⟨63713531040, 0⟩, CheckSum := [],
          Path := "./a/foo-1.0-x86_64-1.tgz".toList })] := by
  unfold packageTimestamps
  rw [scanLines_short
      "-rw-r--r-- 1 root root 10 2020-01-02 03:04 ./a/foo-1.0-x86_64-1.tgz".toList _
      (by decide),
    scanLines_long (List.replicate 70000 ' ') _ (long_line_too_long ' ' (by decide))]
  decide

theorem skipHeader_of_short_lines (pre rest : List Str) (m : Str)
    (hshort : ∀ l ∈ pre, byteLen l < bufio.MaxScanTokenSize)
    (hpre : ∀ l ∈ pre, strings.HasPrefix (bufio.dropCR l) md5Marker = false)
    (hmshort : byteLen m < bufio.MaxScanTokenSize)
    (hm : strings.HasPrefix (bufio.dropCR m) md5Marker = true) :
    skipHeader (pre ++ m :: rest) = bufio.scanLines rest := by
  induction pre with
  | nil =>
    rw [List.nil_append, skipHeader, if_neg (by omega), if_pos hm]
  | cons l ls ih =>
    have hl := hshort l (List.mem_cons_self _ _)
    have hl2 : ¬ strings.HasPrefix (bufio.dropCR l) md5Marker = true := by
      rw [hpre l (List.mem_cons_self _ _)]
      exact Bool.false_ne_true
    rw [List.cons_append, skipHeader, if_neg (by omega), if_neg hl2]
    exact ih (fun x hx => hshort x (List.mem_cons_of_mem _ hx))
      (fun x hx => hpre x (List.mem_cons_of_mem _ hx))

/-- When the lines up to the first marker line are shorter than 64 KiB, `packageChecksums`
ignores the lines before the marker line. -/
theorem packageChecksums_ignores_header_of_short_lines (pre rest prefixes : List Str)
    (m : Str)
    (hshort : ∀ l ∈ pre, byteLen l < bufio.MaxScanTokenSize)
    (hpre : ∀ l ∈ pre, strings.HasPrefix (bufio.dropCR l) md5Marker = false)
    (hmshort : byteLen m < bufio.MaxScanTokenSize)
    (hm : strings.HasPrefix (bufio.dropCR m) md5Marker = true) :
    packageChecksums (pre ++ m :: rest) prefixes = packageChecksums (m :: rest) prefixes := by
  have h1 : skipHeader (m :: rest) = bufio.scanLines rest :=
    skipHeader_of_short_lines [] rest m (fun _ h => absurd h (List.not_mem_nil _))
      (fun _ h => absurd h (List.not_mem_nil _)) hmshort hm
  unfold packageChecksums
  rw [skipHeader_of_short_lines pre rest m hshort hpre hmshort hm, h1]

theorem not_mem_replicate_x (c : Char) (n : Nat) (h : c ≠ 'x') : c ∉ List.replicate n 'x' :=
  fun hm => h (List.mem_replicate.mp hm).2

theorem buffered_x : bufio.dropCR (bufio.buffered (List.replicate 70000 'x')) =
    List.replicate bufio.MaxScanTokenSize 'x' := by
  unfold bufio.buffered
  rw [takeBytes_replicate _ _ 'x' (by decide) (by decide),
    dropCR_of_not_mem _ (not_mem_replicate_x '\r' _ (by decide))]

theorem Split_x (n : Nat) :
    strings.Split (List.replicate n 'x') [' ', ' '] = [List.replicate n 'x'] :=
  Split_spaces_of_no_space (List.replicate n 'x') (not_mem_replicate_x ' ' _ (by decide))

theorem checksumsLine_x (prefixes : List Str) (pkgs : Map) (n : Nat) :
    checksumsLine prefixes pkgs (List.replicate n 'x') =
      .error (.errorf "invalid CHECKSUMS.md5 line: %v" [.str (List.replicate n 'x')]) := by
  have hlen : ([List.replicate n 'x'] : List Str).length ≠ 2 := by
    rw [List.length_singleton]
    decide
  unfold checksumsLine
  simp only [Split_x, hlen, ne_eq, not_false_eq_true, if_true]

theorem checksumsLoop_x (prefixes : List Str) (n : Nat) :
    checksumsLoop prefixes [List.replicate n 'x'] [] =
      .error (.errorf "invalid CHECKSUMS.md5 line: %v" [.str (List.replicate n 'x')]) := by
  unfold checksumsLoop
  rw [checksumsLine_x]

/-- The data loop on the bytes that the scanner holds of a line of 70000 letters. -/
theorem checksumsLoop_buffered_x (prefixes : List Str) :
    checksumsLoop prefixes [bufio.dropCR (bufio.buffered (List.replicate 70000 'x'))] [] =
      .error (.errorf "invalid CHECKSUMS.md5 line: %v"
        [.str (List.replicate bufio.MaxScanTokenSize 'x')]) := by
  rw [buffered_x]
  exact checksumsLoop_x prefixes _

/-- C11, the code at the failing input: with a line of 70000 letters in front of the header
line the scanner gives up in the first loop, the second loop is handed the 65536 bytes that
the scanner holds, and the result is an error; without that line the manifest is read. -/
theorem packageChecksums_header_long_line :
    packageChecksums
      [List.replicate 70000 'x', "MD5 message digest                Filename".toList,
       "abc  ./a/foo-1.0-x86_64-1.tgz".toList] [] =
      .error (.errorf "invalid CHECKSUMS.md5 line: %v"
        [.str (List.replicate bufio.MaxScanTokenSize 'x')]) ∧
    packageChecksums
      ["MD5 message digest                Filename".toList,
       "abc  ./a/foo-1.0-x86_64-1.tgz".toList] [] =
      .ok [("./a/foo-1.0-x86_64-1.tgz".toList,
        { Name := "foo".toList, Version := "1.0".toList, Arch := "x86_64".toList,
          Build := "1".toList, ModTime := Time.zero, CheckSum := [],
          Path := "./a/foo-1.0-x86_64-1.tgz".toList })] := by
  constructor
  · unfold packageChecksums
    rw [skipHeader, if_pos (long_line_too_long 'x' (by decide))]
    exact checksumsLoop_buffered_x []
  · decide

theorem checksumsLoop_bad_line (prefixes lines : List Str) (pkgs : Map) (bad : Str)
    (hbad : bad ∈ lines) (hsplit : (strings.Split bad [' ', ' ']).length ≠ 2) :
    ∃ err, checksumsLoop prefixes lines pkgs = .error err := by
  induction lines generalizing pkgs with
  | nil => exact absurd hbad (List.not_mem_nil _)
  | cons line rest ih =>
    unfold checksumsLoop
    cases hstep : checksumsLine prefixes pkgs line with
    | error err => exact ⟨err, rfl⟩
    | ok pkgs2 =>
      rcases List.mem_cons.mp hbad with h | h
      · subst h
        unfold checksumsLine at hstep
        simp only [hsplit, ne_eq, not_false_eq_true, if_true] at hstep
        cases hstep
      · exact ih pkgs2 h

/-- When the lines up to a line after the header that does not split into two fields are
shorter than 64 KiB, `packageChecksums` returns an error. -/
theorem packageChecksums_bad_line_of_short_lines (pre r1 r2 prefixes : List Str)
    (m bad : Str)
    (hshort : ∀ l ∈ pre, byteLen l < bufio.MaxScanTokenSize)
    (hpre : ∀ l ∈ pre, strings.HasPrefix (bufio.dropCR l) md5Marker = false)
    (hmshort : byteLen m < bufio.MaxScanTokenSize)
    (hm : strings.HasPrefix (bufio.dropCR m) md5Marker = true)
    (hr1 : ∀ l ∈ r1, byteLen l < bufio.MaxScanTokenSize)
    (hbad : byteLen bad < bufio.MaxScanTokenSize)
    (hsplit : (strings.Split (bufio.dropCR bad) [' ', ' ']).length ≠ 2) :
    ∃ err, packageChecksums (pre ++ m :: (r1 ++ bad :: r2)) prefixes = .error err := by
  unfold packageChecksums
  rw [skipHeader_of_short_lines pre _ m hshort hpre hmshort hm, scanLines_append r1 _ hr1,
    scanLines_short bad _ hbad]
  exact checksumsLoop_bad_line prefixes _ [] (bufio.dropCR bad) (by simp) hsplit

/-- C12, the code at the failing input: the line of 70000 letters after the header line
does not split into two fields; the scanner gives up at it, the second loop ends, and the
empty map is returned without an error. -/
theorem packageChecksums_misses_bad_line :
    (strings.Split (List.replicate 70000 'x') [' ', ' ']).length ≠ 2 ∧
    packageChecksums
      ["MD5 message digest                Filename".toList, List.replicate 70000 'x'] [] =
      .ok [] := by
  constructor
  · rw [Split_x, List.length_singleton]
    decide
  · have h1 : skipHeader
        ["MD5 message digest                Filename".toList, List.replicate 70000 'x'] =
        bufio.scanLines [List.replicate 70000 'x'] := by
      rw [skipHeader, if_neg (by decide), if_pos (by decide)]
    unfold packageChecksums
    rw [h1, scanLines_long _ _ (long_line_too_long 'x' (by decide))]
    rfl

/-! ## Lines of the timestamp manifest that are not records -/

theorem timestampsLine_skip (prefixes : List Str) (out : Map) (line : Str)
    (h : (strings.Fields line).length ≠ 8) : timestampsLine prefixes out line = .ok out := by
  unfold timestampsLine
  simp only [h, ne_eq, not_false_eq_true, if_true]

theorem timestampsLoop_scan_skip (prefixes l1 l2 : List Str) (line : Str) (out : Map)
    (h : (strings.Fields line).length ≠ 8) (hshort : byteLen line < bufio.MaxScanTokenSize) :
    timestampsLoop prefixes (bufio.scanLines (l1 ++ line :: l2)) out =
      timestampsLoop prefixes (bufio.scanLines (l1 ++ l2)) out := by
  induction l1 generalizing out with
  | nil =>
    rw [List.nil_append, List.nil_append, scanLines_short line l2 hshort, timestampsLoop,
      timestampsLine_dropCR, timestampsLine_skip prefixes out line h]
  | cons l ls ih =>
    rw [List.cons_append, List.cons_append]
    by_cases hl : byteLen l < bufio.MaxScanTokenSize
    · rw [scanLines_short l _ hl, scanLines_short l _ hl, timestampsLoop, timestampsLoop]
      cases timestampsLine prefixes out (bufio.dropCR l) with
      | error err => rfl
      | ok out2 => exact ih out2
    · rw [scanLines_long l _ (by omega), scanLines_long l _ (by omega)]

/-- C13 (as amended): a line of the timestamp manifest of less than 64 KiB that does not
have eight fields is skipped: `packageTimestamps` returns what it returns on the manifest
without that line. -/
theorem packageTimestamps_skips_line (prefixes l1 l2 : List Str) (line : Str)
    (h : (strings.Fields line).length ≠ 8) (hshort : byteLen line < bufio.MaxScanTokenSize) :
    packageTimestamps (l1 ++ line :: l2) prefixes = packageTimestamps (l1 ++ l2) prefixes :=
  timestampsLoop_scan_skip prefixes l1 l2 line [] h hshort

/-- C13, witness: a line of seven fields between two lines. -/
theorem packageTimestamps_skips_line_witness :
    packageTimestamps
      (["drwxr-xr-x 2 root root 4096 2020-01-02 03:04 ./a".toList] ++
        "-rw-r--r-- 1 root root 2020-01-02 03:04 ./a/foo-1.0-x86_64-1.tgz".toList ::
        ["-rw-r--r-- 1 root root 10 2020-01-02 03:04 ./a/bar-1.0-x86_64-1.tgz".toList]) [] =
    packageTimestamps
      (["drwxr-xr-x 2 root root 4096 2020-01-02 03:04 ./a".toList] ++
        ["-rw-r--r-- 1 root root 10 2020-01-02 03:04 ./a/bar-1.0-x86_64-1.tgz".toList]) [] :=
  packageTimestamps_skips_line []
    ["drwxr-xr-x 2 root root 4096 2020-01-02 03:04 ./a".toList]
    ["-rw-r--r-- 1 root root 10 2020-01-02 03:04 ./a/bar-1.0-x86_64-1.tgz".toList]
    "-rw-r--r-- 1 root root 2020-01-02 03:04 ./a/foo-1.0-x86_64-1.tgz".toList
    (by decide) (by decide)

/-- C13, counterexample: a manifest with a line of text, which does not have eight fields,
is read without an error. -/
theorem packageTimestamps_skips_line_counterexample :
    (strings.Fields "Here is the file list.".toList).length ≠ 8 ∧
    packageTimestamps
      ["Here is the file list.".toList,
       "-rw-r--r-- 1 root root 10 2020-01-02 03:04 ./a/foo-1.0-x86_64-1.tgz".toList] [] =
      .ok [("./a/foo-1.0-x86_64-1.tgz".toList,
        { Name := "foo".toList, Version := "1.0".toList, Arch := "x86_64".toList,
          Build := "1".toList, ModTime := ⟨63713531040, 0⟩, CheckSum := [],
          Path := "./a/foo-1.0-x86_64-1.tgz".toList })] := by
  decide

end PackageTools
